import Mathlib

/-!
Verification of the task-extraction, hierarchy and sorting core of the
Obsidian-Task-Genius repository.  The TypeScript sources
`src/utils/workers/TaskIndex.worker.ts` and
`src/components/task-view/forecastStore.ts` are shallowly embedded below:
pure functions become Lean functions on `List Char` / `String`, object
mutation becomes explicit record updates, and the JavaScript regexes used by
the extractors are embedded as explicit leftmost-match scanners.  Constants
that the sources import from files absent from the repository snapshot
(`TASK_REGEX`, the emoji/dataview field regexes, `PRIORITY_MAP`,
`parseLocalDate`, `parseTaskLine`) are modelled from the specification and
carry a doc comment saying so.
-/

namespace TaskGenius

/-! ## Basic character and string utilities (JavaScript semantics) -/

/-- JavaScript `\s` for the characters that occur on a single line. -/
def isWsChar (c : Char) : Bool :=
  c = ' ' || c = '\t' || c = '\r' || c = '\n' || c = '\x0b' || c = '\x0c'

/-- JavaScript `\w`: ASCII letters, digits and underscore. -/
def isWordChar (c : Char) : Bool :=
  (c ≥ 'a' && c ≤ 'z') || (c ≥ 'A' && c ≤ 'Z') || (c ≥ '0' && c ≤ '9') || c = '_'

/-- Character class of the modelled `EMOJI_TAG_REGEX` body (`[-\w\/]`). -/
def isTagChar (c : Char) : Bool :=
  isWordChar c || c = '-' || c = '/'

/-- Character class of the modelled `EMOJI_CONTEXT_REGEX` body (`[\w-]`). -/
def isCtxChar (c : Char) : Bool :=
  isWordChar c || c = '-'

/-- Remove the first occurrence of the substring `pat`, as JavaScript
`String.prototype.replace(pat, "")` does with a plain-string pattern. -/
def removeFirstSub (pat : List Char) : List Char → List Char
  | [] => []
  | c :: r =>
    if pat.isPrefixOf (c :: r) then (c :: r).drop pat.length
    else c :: removeFirstSub pat r

/-- First index at which the substring `pat` occurs (JavaScript `indexOf`). -/
def indexOfSub (pat : List Char) : List Char → Option Nat
  | [] => if pat = [] then some 0 else none
  | c :: r =>
    if pat.isPrefixOf (c :: r) then some 0
    else (indexOfSub pat r).map (· + 1)

/-- JavaScript `String.prototype.substring(a, b)`: clamps both indices to the
string length and swaps them when `a > b`. -/
def jsSubstring (l : List Char) (a b : Nat) : List Char :=
  let n := l.length
  let a' := min a n
  let b' := min b n
  let lo := min a' b'
  let hi := max a' b'
  (l.drop lo).take (hi - lo)

/-- Trim whitespace from both ends (JavaScript `trim`). -/
def trimWs (l : List Char) : List Char :=
  ((l.dropWhile isWsChar).reverse.dropWhile isWsChar).reverse

/-- Split a character list at every occurrence of a separator character
(JavaScript `split` with a one-character separator). -/
def splitOnCharL (sep : Char) : List Char → List (List Char)
  | [] => [[]]
  | c :: r =>
    if c = sep then [] :: splitOnCharL sep r
    else
      match splitOnCharL sep r with
      | [] => [[c]]
      | g :: gs => (c :: g) :: gs

/-- JavaScript `trim` on strings, via `trimWs`. -/
def jsTrim (s : String) : String := String.mk (trimWs s.data)

/-- JavaScript `toLowerCase` (ASCII range, which covers every status marker
and priority name in play). -/
def toLowerStr (s : String) : String := String.mk (s.data.map Char.toLower)

/-- JavaScript `startsWith`. -/
def startsWithStr (s pre : String) : Bool := pre.data.isPrefixOf s.data

/-- Collapse every run of two or more whitespace characters to a single
space, leaving isolated whitespace characters untouched
(JavaScript `replace(/\s{2,}/g, " ")`). -/
def collapseWsF : Nat → List Char → List Char
  | _, [] => []
  | 0, l => l
  | f + 1, c :: r =>
    if isWsChar c && (match r with | d :: _ => isWsChar d | [] => false) then
      ' ' :: collapseWsF f (r.dropWhile isWsChar)
    else
      c :: collapseWsF f r

def collapseWs (l : List Char) : List Char := collapseWsF l.length l

/-- Digit value of an ASCII digit character. -/
def digitVal (c : Char) : Nat := c.toNat - 48

/-- Recognise a `\d{4}-\d{2}-\d{2}` date token at the head of the list,
returning the token and the remainder. -/
def dateTokenAt : List Char → Option (List Char × List Char)
  | y1 :: y2 :: y3 :: y4 :: '-' :: m1 :: m2 :: '-' :: d1 :: d2 :: rest =>
    if y1.isDigit && y2.isDigit && y3.isDigit && y4.isDigit &&
       m1.isDigit && m2.isDigit && d1.isDigit && d2.isDigit then
      some ([y1, y2, y3, y4, '-', m1, m2, '-', d1, d2], rest)
    else none
  | _ => none

/-- Modelled from the spec: `parseLocalDate` (imported from the absent
`src/utils/dateUtil.ts`).  Dates are date-only `YYYY-MM-DD` strings; a parse
yields a number that is strictly monotone in the calendar date (standing in
for the epoch-millisecond value at local midnight), and an out-of-range
month or day yields no value. -/
def parseLocalDate (s : String) : Option Int :=
  match dateTokenAt (trimWs s.data) with
  | some ([y1, y2, y3, y4, _, m1, m2, _, d1, d2], []) =>
    let y := digitVal y1 * 1000 + digitVal y2 * 100 + digitVal y3 * 10 + digitVal y4
    let m := digitVal m1 * 10 + digitVal m2
    let d := digitVal d1 * 10 + digitVal d2
    if 1 ≤ m && m ≤ 12 && 1 ≤ d && d ≤ 31 then
      some ((y * 10000 + m * 100 + d : Nat) : Int)
    else none
  | _ => none

/-! ## Pattern scanners

Each JavaScript regex is embedded as a function that either matches at the
head of a character list, returning the match length and the first capture
group, or fails; `scanFor` then provides leftmost-match search. -/

/-- Leftmost match of an anchored pattern: returns (start index, match
length, capture group 1). -/
def scanFor (pat : List Char → Option (Nat × String)) : List Char → Option (Nat × Nat × String)
  | [] =>
    match pat [] with
    | some (n, g) => some (0, n, g)
    | none => none
  | c :: rest =>
    match pat (c :: rest) with
    | some (n, g) => some (0, n, g)
    | none => (scanFor pat rest).map fun p => (p.1 + 1, p.2.1, p.2.2)

/-- Text matched at position `i` with length `n`. -/
def matchedSub (l : List Char) (i n : Nat) : List Char :=
  (l.drop i).take n

/-- Modelled from the spec: the emoji date regexes (absent
`src/common/regex-define.ts`), each a marker symbol followed by optional
whitespace and a `YYYY-MM-DD` capture, e.g. `/📅\s*(\d{4}-\d{2}-\d{2})/`. -/
def emojiDatePatAt (marker : Char) : List Char → Option (Nat × String)
  | [] => none
  | c :: rest =>
    if c = marker then
      let sp := rest.takeWhile isWsChar
      match dateTokenAt (rest.drop sp.length) with
      | some (tok, _) => some (1 + sp.length + 10, String.mk tok)
      | none => none
    else none

/-- Modelled from the spec: the dataview field regexes (absent
`src/common/regex-define.ts`), `/\[name::\s*([^\]]+)\]/` for a given field
name. -/
def dvFieldPatAt (name : List Char) : List Char → Option (Nat × String)
  | '[' :: rest =>
    if name.isPrefixOf rest then
      match rest.drop name.length with
      | ':' :: ':' :: r2 =>
        let sp := r2.takeWhile isWsChar
        let r3 := r2.drop sp.length
        let cap := r3.takeWhile (fun c => c ≠ ']')
        match r3.drop cap.length with
        | ']' :: _ =>
          if cap.length = 0 then none
          else some (1 + name.length + 2 + sp.length + cap.length + 1, String.mk cap)
        | _ => none
      | _ => none
    else none
  | _ => none

/-- Modelled from the spec: `EMOJI_CONTEXT_REGEX` (absent
`src/common/regex-define.ts`), an `@`-prefixed token `/@([\w-]+)/`. -/
def ctxPatAt : List Char → Option (Nat × String)
  | '@' :: rest =>
    let run := rest.takeWhile isCtxChar
    if run.length = 0 then none
    else some (1 + run.length, String.mk run)
  | _ => none

/-- Modelled from the spec: `EMOJI_TAG_REGEX` (absent
`src/common/regex-define.ts`), a `#`-prefixed token `/#[-\w\/]+/g` with no
boundary requirement (the source masks links precisely because the scan
would otherwise match inside them). -/
def tagPatAt : List Char → Option (Nat × String)
  | '#' :: rest =>
    let run := rest.takeWhile isTagChar
    if run.length = 0 then none
    else some (1 + run.length, String.mk ('#' :: run))
  | _ => none

/-- The `#project/([-\w\/]+)` pattern built in `extractProject` from the
modelled constant `EMOJI_PROJECT_PREFIX = "#project/"`. -/
def projectTagPatAt : List Char → Option (Nat × String)
  | '#' :: 'p' :: 'r' :: 'o' :: 'j' :: 'e' :: 'c' :: 't' :: '/' :: rest =>
    let run := rest.takeWhile isTagChar
    if run.length = 0 then none
    else some (9 + run.length, String.mk run)
  | _ => none

/-- Modelled from the spec: `EMOJI_RECURRENCE_REGEX` (absent
`src/common/regex-define.ts`): `🔁` followed by a free-text capture running
to the next metadata marker, tag, context token or end of text. -/
def recurStopChar (c : Char) : Bool :=
  c = '📅' || c = '⏳' || c = '🛫' || c = '✅' || c = '➕' || c = '🔁' || c = '#' || c = '@'

def emojiRecurrencePatAt : List Char → Option (Nat × String)
  | '🔁' :: rest =>
    let run := rest.takeWhile (fun c => !recurStopChar c)
    if (trimWs run).length = 0 then none
    else some (1 + run.length, String.mk run)
  | _ => none

/-- Modelled from the spec: `PRIORITY_MAP` (absent
`src/common/default-symbol.ts`): the fixed symbol table of the emoji format
together with the fixed name table of the dataview format, higher number
meaning more urgent. -/
def PRIORITY_MAP : List (String × Int) :=
  [("🔺", 5), ("⏫", 4), ("🔼", 3), ("🔽", 2), ("⏬", 1),
   ("highest", 5), ("high", 4), ("medium", 3), ("low", 2), ("lowest", 1),
   ("urgent", 5), ("none", 0)]

/-- Modelled from the spec: `EMOJI_PRIORITY_REGEX` (absent
`src/common/regex-define.ts`), matching one of the five priority symbols. -/
def emojiPriorityPatAt : List Char → Option (Nat × String)
  | c :: _ =>
    if c = '🔺' || c = '⏫' || c = '🔼' || c = '🔽' || c = '⏬' then
      some (1, String.mk [c])
    else none
  | [] => none

/-- JavaScript `parseInt(s, 10)`: leading whitespace, optional sign, then a
maximal digit run; no digits means `NaN`. -/
def jsParseInt (s : String) : Option Int :=
  let l := s.data.dropWhile isWsChar
  let (neg, l2) :=
    match l with
    | '-' :: r => (true, r)
    | '+' :: r => (false, r)
    | r => (false, r)
  let ds := l2.takeWhile Char.isDigit
  if ds.length = 0 then none
  else
    let n := ds.foldl (fun a c => a * 10 + digitVal c) 0
    some (if neg then -(n : Int) else (n : Int))

/-! ## Task record and metadata formats (`TaskIndex.worker.ts`) -/

/-- The two metadata conventions (`type MetadataFormat = "tasks" | "dataview"`). -/
inductive MetadataFormat where
  | tasks
  | dataview
deriving DecidableEq

/-- The worker's `Task` record, with JavaScript `undefined` as `none`. -/
structure WTask where
  id : String
  content : String
  filePath : String
  line : Nat
  completed : Bool
  status : String
  originalMarkdown : String
  tags : List String
  children : List String
  parent : Option String := none
  priority : Option Int := none
  startDate : Option Int := none
  dueDate : Option Int := none
  scheduledDate : Option Int := none
  completedDate : Option Int := none
  createdDate : Option Int := none
  recurrence : Option String := none
  project : Option String := none
  context : Option String := none
deriving DecidableEq

/-- The five date fields handled by `extractDates`. -/
inductive DateField where
  | due
  | scheduled
  | start
  | completedAt
  | createdAt
deriving DecidableEq

def getDateField (t : WTask) : DateField → Option Int
  | .due => t.dueDate
  | .scheduled => t.scheduledDate
  | .start => t.startDate
  | .completedAt => t.completedDate
  | .createdAt => t.createdDate

def setDateField (t : WTask) (f : DateField) (v : Int) : WTask :=
  match f with
  | .due => { t with dueDate := some v }
  | .scheduled => { t with scheduledDate := some v }
  | .start => { t with startDate := some v }
  | .completedAt => { t with completedDate := some v }
  | .createdAt => { t with createdDate := some v }

/-- The dataview field-name spelling of each date field, and the emoji
marker symbol of each date field (modelled from the spec). -/
def dvDateName : DateField → List Char
  | .due => "due".data
  | .scheduled => "scheduled".data
  | .start => "start".data
  | .completedAt => "completion".data
  | .createdAt => "created".data

def emojiDateMarker : DateField → Char
  | .due => '📅'
  | .scheduled => '⏳'
  | .start => '🛫'
  | .completedAt => '✅'
  | .createdAt => '➕'

/-- Inner helper `tryParseAndAssign` of `extractDates`: skip when the field
is already assigned; on a regex match whose captured date parses, assign the
field and strip the matched text; a capture that fails to parse changes
nothing. -/
def tryParseAndAssign (pat : List Char → Option (Nat × String)) (fld : DateField)
    (t : WTask) (content : List Char) : WTask × List Char × Bool :=
  if (getDateField t fld).isSome then (t, content, false)
  else
    match scanFor pat content with
    | some (i, n, g1) =>
      if g1 ≠ "" then
        match parseLocalDate g1 with
        | some v => (setDateField t fld v, removeFirstSub (matchedSub content i n) content, true)
        | none => (t, content, false)
      else (t, content, false)
    | none => (t, content, false)

/-- Preferred-then-fallback composition used for each date field
(`!tryParseAndAssign(A, f) && tryParseAndAssign(B, f)`). -/
def tryTwo (p1 p2 : List Char → Option (Nat × String)) (fld : DateField)
    (t : WTask) (content : List Char) : WTask × List Char :=
  let r1 := tryParseAndAssign p1 fld t content
  if r1.2.2 then (r1.1, r1.2.1)
  else
    let r2 := tryParseAndAssign p2 fld r1.1 r1.2.1
    (r2.1, r2.2.1)

/-- One date field of `extractDates`, honouring the format preference. -/
def extractOneDate (fmt : MetadataFormat) (fld : DateField)
    (t : WTask) (content : List Char) : WTask × List Char :=
  if fmt = .dataview then
    tryTwo (dvFieldPatAt (dvDateName fld)) (emojiDatePatAt (emojiDateMarker fld)) fld t content
  else
    tryTwo (emojiDatePatAt (emojiDateMarker fld)) (dvFieldPatAt (dvDateName fld)) fld t content

/-- `extractDates` of `TaskIndex.worker.ts`: due, scheduled, start,
completion, created, in that order. -/
def extractDates (t : WTask) (content : List Char) (fmt : MetadataFormat) :
    WTask × List Char :=
  let s1 := extractOneDate fmt .due t content
  let s2 := extractOneDate fmt .scheduled s1.1 s1.2
  let s3 := extractOneDate fmt .start s2.1 s2.2
  let s4 := extractOneDate fmt .completedAt s3.1 s3.2
  extractOneDate fmt .createdAt s4.1 s4.2

/-- `extractRecurrence` of `TaskIndex.worker.ts`. -/
def extractRecurrence (t : WTask) (content : List Char) (fmt : MetadataFormat) :
    WTask × List Char :=
  match fmt, scanFor (dvFieldPatAt "repeat".data) content with
  | .dataview, some (i, n, g1) =>
    if g1 ≠ "" then
      ({ t with recurrence := some (jsTrim g1) }, removeFirstSub (matchedSub content i n) content)
    else
      match scanFor emojiRecurrencePatAt content with
      | some (j, m, g2) =>
        if g2 ≠ "" then
          ({ t with recurrence := some (jsTrim g2) }, removeFirstSub (matchedSub content j m) content)
        else (t, content)
      | none => (t, content)
  | _, _ =>
    match scanFor emojiRecurrencePatAt content with
    | some (j, m, g2) =>
      if g2 ≠ "" then
        ({ t with recurrence := some (jsTrim g2) }, removeFirstSub (matchedSub content j m) content)
      else (t, content)
    | none => (t, content)

/-- `extractPriority` of `TaskIndex.worker.ts`: the dataview capture goes
through the symbol-or-name table and then `parseInt`; the emoji capture goes
through the table only, and strips the match only when the lookup hits. -/
def extractPriorityEmoji (t : WTask) (content : List Char) : WTask × List Char :=
  match scanFor emojiPriorityPatAt content with
  | some (i, n, g1) =>
    if g1 ≠ "" then
      let p := (PRIORITY_MAP.lookup g1)
      let t' := { t with priority := p }
      if p.isSome then (t', removeFirstSub (matchedSub content i n) content)
      else (t', content)
    else (t, content)
  | none => (t, content)

def extractPriority (t : WTask) (content : List Char) (fmt : MetadataFormat) :
    WTask × List Char :=
  match fmt, scanFor (dvFieldPatAt "priority".data) content with
  | .dataview, some (i, n, g1) =>
    if g1 ≠ "" then
      let v := toLowerStr (jsTrim g1)
      match PRIORITY_MAP.lookup v with
      | some p => ({ t with priority := some p }, removeFirstSub (matchedSub content i n) content)
      | none =>
        match jsParseInt v with
        | some k => ({ t with priority := some k }, removeFirstSub (matchedSub content i n) content)
        | none => extractPriorityEmoji t content
    else extractPriorityEmoji t content
  | _, _ => extractPriorityEmoji t content

/-- `extractProject` of `TaskIndex.worker.ts`: the dataview field strips its
match; the `#project/` tag sets the project but is deliberately not
stripped (tag extraction removes it later). -/
def extractProject (t : WTask) (content : List Char) (fmt : MetadataFormat) :
    WTask × List Char :=
  match fmt, scanFor (dvFieldPatAt "project".data) content with
  | .dataview, some (i, n, g1) =>
    if g1 ≠ "" then
      ({ t with project := some (jsTrim g1) }, removeFirstSub (matchedSub content i n) content)
    else
      match scanFor projectTagPatAt content with
      | some (_, _, g2) =>
        if g2 ≠ "" then ({ t with project := some (jsTrim g2) }, content) else (t, content)
      | none => (t, content)
  | _, _ =>
    match scanFor projectTagPatAt content with
    | some (_, _, g2) =>
      if g2 ≠ "" then ({ t with project := some (jsTrim g2) }, content) else (t, content)
    | none => (t, content)

/-! ## Link scanners and global replacement -/

/-- All non-overlapping leftmost matches of a length-only pattern, as
(start, length) pairs with absolute positions (JavaScript `exec` loop with a
global regex). -/
def findAllAuxF (pat : List Char → Option Nat) : Nat → List Char → Nat → List (Nat × Nat)
  | _, [], _ => []
  | 0, _, _ => []
  | f + 1, c :: r, i =>
    match pat (c :: r) with
    | some (n + 1) => (i, n + 1) :: findAllAuxF pat f (r.drop n) (i + n + 1)
    | _ => findAllAuxF pat f r (i + 1)

def findAllAux (pat : List Char → Option Nat) (l : List Char) (i : Nat) : List (Nat × Nat) :=
  findAllAuxF pat l.length l i

def findAllTexts (pat : List Char → Option Nat) (l : List Char) : List (List Char) :=
  (findAllAux pat l 0).map fun p => matchedSub l p.1 p.2

/-- Global replace-with-empty of a length-only pattern
(JavaScript `replace(re, "")` with a global regex). -/
def removeAllPatF (pat : List Char → Option Nat) : Nat → List Char → List Char
  | _, [] => []
  | 0, l => l
  | f + 1, c :: r =>
    match pat (c :: r) with
    | some (n + 1) => removeAllPatF pat f (r.drop n)
    | _ => c :: removeAllPatF pat f r

def removeAllPat (pat : List Char → Option Nat) (l : List Char) : List Char :=
  removeAllPatF pat l.length l

/-- The pipe-free wiki-link regex of `extractContext`,
`/\[\[([^\]]+)\]\]/g`, as a length-only pattern. -/
def wikiNoAliasPat : List Char → Option Nat
  | '[' :: '[' :: rest =>
    let run := rest.takeWhile (fun c => c ≠ ']')
    if run.length = 0 then none
    else
      match rest.drop run.length with
      | ']' :: ']' :: _ => some (2 + run.length + 2)
      | _ => none
  | _ => none

/-- The aliased wiki-link regex of `extractTags`,
`/\[\[(?!.+?:)([^\]\[]+)\|([^\]\[]+)\]\]/g`: both capture groups exclude
square brackets, an alias pipe is mandatory, and the negative lookahead
rejects the match when a colon occurs anywhere at least two characters past
the opening brackets. -/
def wikiAliasPat : List Char → Option Nat
  | '[' :: '[' :: rest =>
    if (rest.drop 1).elem ':' then none
    else
      let run := rest.takeWhile (fun c => c ≠ ']' && c ≠ '[')
      if ((run.drop 1).dropLast).elem '|' then
        match rest.drop run.length with
        | ']' :: ']' :: _ => some (2 + run.length + 2)
        | _ => none
      else none
  | _ => none

/-- The markdown-link regex of `extractTags`, `/\[([^\[\]]*)\]\((.*?)\)/g`. -/
def mdLinkPat : List Char → Option Nat
  | '[' :: rest =>
    let run := rest.takeWhile (fun c => c ≠ ']' && c ≠ '[')
    match rest.drop run.length with
    | ']' :: '(' :: r4 =>
      let body := r4.takeWhile (fun c => c ≠ ')')
      match r4.drop body.length with
      | ')' :: _ => some (1 + run.length + 2 + body.length + 1)
      | _ => none
    | _ => none
  | _ => none

/-- Modelled from the spec: `ANY_DATAVIEW_FIELD_REGEX` (absent
`src/common/regex-define.ts`), `/\[\w+::\s*[^\]]*\]/g`. -/
def dvAnyFieldPat : List Char → Option Nat
  | '[' :: rest =>
    let w := rest.takeWhile isWordChar
    if w.length = 0 then none
    else
      match rest.drop w.length with
      | ':' :: ':' :: r2 =>
        let sp := r2.takeWhile isWsChar
        let body := (r2.drop sp.length).takeWhile (fun c => c ≠ ']')
        match (r2.drop sp.length).drop body.length with
        | ']' :: _ => some (1 + w.length + 2 + sp.length + body.length + 1)
        | _ => none
      | _ => none
  | _ => none

/-- Length-only form of the `@`-token regex `/@[\w-]+/g`. -/
def ctxLenPat (l : List Char) : Option Nat :=
  (ctxPatAt l).map fun p => p.1

/-- Length-only form of the modelled `EMOJI_TAG_REGEX`. -/
def tagLenPat (l : List Char) : Option Nat :=
  (tagPatAt l).map fun p => p.1

/-! ## Stable insertion sort (model of the ECMAScript stable `Array.sort`) -/

def insertLe (le : α → α → Bool) (a : α) : List α → List α
  | [] => [a]
  | b :: l => if le a b then a :: b :: l else b :: insertLe le a l

def sortLe (le : α → α → Bool) : List α → List α
  | [] => []
  | a :: l => insertLe le a (sortLe le l)

/-! ## `extractContext` and `extractTags` -/

/-- JavaScript truthiness of an optional string: `undefined` and `""` are
falsy. -/
def jsFalsyOptStr : Option String → Bool
  | none => true
  | some s => s = ""

/-- The emoji half of `extractContext`: the first `@`-token is taken unless
it lies inside a pipe-free wiki link (positions resolved with `indexOf` on
the matched link text, as the source does). -/
def extractContextEmoji (t : WTask) (content : List Char) : WTask × List Char :=
  let wikiTexts := findAllTexts wikiNoAliasPat content
  match scanFor ctxPatAt content with
  | some (i, n, g1) =>
    if g1 ≠ "" then
      let inside := wikiTexts.any fun txt =>
        match indexOfSub txt content with
        | some ls => decide (ls ≤ i && i < ls + txt.length)
        | none => false
      if inside then (t, content)
      else ({ t with context := some (jsTrim g1) }, removeFirstSub (matchedSub content i n) content)
    else (t, content)
  | none => (t, content)

/-- `extractContext` of `TaskIndex.worker.ts`: the dataview field is
preferred; otherwise the `@`-token path runs. -/
def extractContext (t : WTask) (content : List Char) (fmt : MetadataFormat) :
    WTask × List Char :=
  match fmt, scanFor (dvFieldPatAt "context".data) content with
  | .dataview, some (i, n, g1) =>
    if g1 ≠ "" then
      ({ t with context := some (jsTrim g1) }, removeFirstSub (matchedSub content i n) content)
    else extractContextEmoji t content
  | _, _ => extractContextEmoji t content

/-- Mask the span starting at `s` of length `len` with spaces, via the
source's `substring` arithmetic. -/
def spliceSpaces (l : List Char) (s len : Nat) : List Char :=
  jsSubstring l 0 s ++ List.replicate len ' ' ++ l.drop (s + len)

/-- Lookahead `(?=\s|$)` after a tag occurrence. -/
def boundaryOk : List Char → Bool
  | [] => true
  | c :: _ => isWsChar c

/-- Global replace-with-empty of `/\s?TAG(?=\s|$)/g` for a literal tag. -/
def removeTagOccF (tag : List Char) : Nat → List Char → List Char
  | _, [] => []
  | 0, l => l
  | f + 1, c :: r =>
    if tag = [] then c :: r
    else if isWsChar c && tag.isPrefixOf r && boundaryOk (r.drop tag.length) then
      removeTagOccF tag f (r.drop tag.length)
    else if tag.isPrefixOf (c :: r) && boundaryOk ((c :: r).drop tag.length) then
      removeTagOccF tag f ((c :: r).drop tag.length)
    else c :: removeTagOccF tag f r

def removeTagOcc (tag : List Char) (l : List Char) : List Char :=
  removeTagOccF tag l.length l

/-- The project-tag head `EMOJI_PROJECT_PREFIX = "#project/"` (modelled from
the spec; the defining module is absent from the snapshot). -/
def emojiProjectHead : String := "#project/"

/-- `extractTags` of `TaskIndex.worker.ts`.  Dataview fields are stripped
first in dataview format; aliased wiki links and markdown links are located
and masked with spaces before the tag scan; the project is derived from a
`#project/` tag in emoji format; `#project/` tags are filtered from the tag
list only in dataview format; finally tag occurrences and stray `@`-tokens
outside links are removed from the (unmasked) text, which is whitespace
collapsed. -/
def extractTags (t : WTask) (content : List Char) (fmt : MetadataFormat) :
    WTask × List Char :=
  let remaining := if fmt = .dataview then removeAllPat dvAnyFieldPat content else content
  let wikiL := findAllAux wikiAliasPat remaining 0
  let mdAll := findAllAux mdLinkPat remaining 0
  let mdL := mdAll.filter fun m =>
    !(wikiL.any fun w => max w.1 m.1 < min (w.1 + w.2) (m.1 + m.2))
  let links := sortLe (fun a b => Nat.ble a.1 b.1) (wikiL ++ mdL)
  let processed := links.foldl (fun acc lk => spliceSpaces acc lk.1 lk.2) remaining
  let tags0 := (findAllTexts tagLenPat processed).map fun tg => jsTrim (String.mk tg)
  let proj :=
    if fmt = .dataview then t.project
    else if jsFalsyOptStr t.project then
      match tags0.find? (fun tg => startsWithStr tg emojiProjectHead) with
      | some ptag => some (String.mk (ptag.data.drop emojiProjectHead.data.length))
      | none => t.project
    else t.project
  let tags1 :=
    if fmt = .dataview then tags0.filter (fun tg => !startsWithStr tg emojiProjectHead)
    else tags0
  let cwt := tags1.foldl
    (fun acc tg => if tg ≠ "" ∧ tg ≠ "#" then removeTagOcc tg.data acc else acc) remaining
  let final :=
    if links.isEmpty then trimWs (removeAllPat ctxLenPat cwt)
    else
      let st := links.foldl
        (fun (st : List Char × Nat) lk =>
          let seg := jsSubstring cwt st.2 lk.1
          (st.1 ++ trimWs (removeAllPat ctxLenPat seg) ++ matchedSub remaining lk.1 lk.2,
           lk.1 + lk.2))
        (([] : List Char), 0)
      st.1 ++ trimWs (removeAllPat ctxLenPat (cwt.drop st.2))
  ({ t with tags := tags1, project := proj }, trimWs (collapseWs final))

/-! ## Line grammar and `parseTasksFromContent` -/

/-- After the list marker: `\s\[(.)\]\s*(.*)` — one whitespace, the bracketed
one-character status, then the content with leading whitespace skipped. -/
def matchAfterBox : List Char → Option (String × String)
  | w :: '[' :: st :: ']' :: r2 =>
    if isWsChar w then some (String.mk [st], String.mk (r2.dropWhile isWsChar))
    else none
  | _ => none

/-- Modelled from the spec: `TASK_REGEX` (absent
`src/common/regex-define.ts`).  A task line is optional indentation (and
blockquote markers), a list marker (`-`, `*`, `+` or `digits.`), one
whitespace, `[` status `]`, then the line content; the destructuring in
`parseTasksFromContent` keeps group 4 (status) and group 5 (content). -/
def matchTaskLine (line : String) : Option (String × String) :=
  match line.data.dropWhile (fun c => isWsChar c || c = '>') with
  | [] => none
  | c :: r =>
    if c = '-' || c = '*' || c = '+' then matchAfterBox r
    else if c.isDigit then
      let ds := r.takeWhile Char.isDigit
      match r.drop ds.length with
      | '.' :: r2 => matchAfterBox r2
      | _ => none
    else none

/-- The fresh task record built for a matched line; `completed` is the
hardcoded `status.toLowerCase() === "x"` of the source. -/
def mkBaseTask (filePath : String) (i : Nat) (line status contentWM : String) : WTask :=
  { id := filePath ++ "-L" ++ toString i
    content := jsTrim contentWM
    filePath := filePath
    line := i
    completed := toLowerStr status == "x"
    status := status
    originalMarkdown := line
    tags := []
    children := [] }

/-- The fixed extractor pipeline of `parseTasksFromContent`: dates,
recurrence, priority, project, context, tags, then whitespace cleanup of the
remaining content. -/
def runExtractors (t : WTask) (contentWM : String) (fmt : MetadataFormat) : WTask :=
  let s1 := extractDates t contentWM.data fmt
  let s2 := extractRecurrence s1.1 s1.2 fmt
  let s3 := extractPriority s2.1 s2.2 fmt
  let s4 := extractProject s3.1 s3.2 fmt
  let s5 := extractContext s4.1 s4.2 fmt
  let s6 := extractTags s5.1 s5.2 fmt
  { s6.1 with content := String.mk (trimWs (collapseWs s6.2)) }

/-- `extractAmbientProperties`: when the file cache carries a `#project`
tag, the project becomes the file basename without its `.md` extension.
The cache is modelled as the optional list of its tag strings. -/
def extractAmbientProperties (t : WTask) (fileCache : Option (List String)) : WTask :=
  match fileCache with
  | none => t
  | some cacheTags =>
    if cacheTags.contains "#project" then
      let last := ((splitOnCharL '/' t.filePath.data).map String.mk).getLastD ""
      let basename := if last = "" then t.filePath else last
      { t with project := some (String.mk (removeFirstSub ".md".data basename.data)) }
    else t

/-- Split file content on `/\r?\n/`. -/
def splitLinesL : List Char → List (List Char)
  | [] => [[]]
  | '\r' :: '\n' :: r => [] :: splitLinesL r
  | '\n' :: r => [] :: splitLinesL r
  | c :: r =>
    match splitLinesL r with
    | [] => [[c]]
    | g :: gs => (c :: g) :: gs

def splitLines (content : String) : List String :=
  (splitLinesL content.data).map String.mk

/-- `getIndentLevel` of `TaskIndex.worker.ts`: length of the leading
whitespace (`/^(\s*)/`). -/
def getIndentLevel (line : String) : Nat :=
  (line.data.takeWhile isWsChar).length

/-- The ancestor-stack walk of `buildTaskHierarchy`: for each task in order,
pop stack entries whose indentation is at least the task's, record the
remaining top (if any) as parent, then push the task. -/
def hierPairsAux (stack : List (String × Nat)) : List WTask → List (WTask × Option String)
  | [] => []
  | t :: rest =>
    let ind := getIndentLevel t.originalMarkdown
    let kept := stack.dropWhile (fun e => ind ≤ e.2)
    (t, kept.head?.map (·.1)) :: hierPairsAux ((t.id, ind) :: kept) rest

/-- `buildTaskHierarchy` of `TaskIndex.worker.ts`: sort by line number,
assign parents via the ancestor stack, and append each task's id to its
parent's child list in processing order. -/
def buildTaskHierarchy (tasks : List WTask) : List WTask :=
  let sorted := sortLe (fun a b => Nat.ble a.line b.line) tasks
  let pairs := hierPairsAux [] sorted
  pairs.map fun p =>
    { p.1 with
      parent := match p.2 with | some q => some q | none => p.1.parent
      children := p.1.children ++
        pairs.filterMap fun q => if q.2 = some p.1.id then some q.1.id else none }

/-- `parseTasksFromContent` of `TaskIndex.worker.ts`. -/
def parseTasksFromContent (filePath content : String) (fmt : MetadataFormat)
    (fileCache : Option (List String)) : List WTask :=
  let lines := splitLines content
  let tasks := lines.enum.filterMap fun p =>
    (matchTaskLine p.2).map fun sc =>
      extractAmbientProperties
        (runExtractors (mkBaseTask filePath p.1 p.2 sc.1 sc.2) sc.2 fmt) fileCache
  buildTaskHierarchy tasks

/-! ## Settings and `getDynamicStatusOrder` (`forecastStore.ts`) -/

def splitBar (s : String) : List String := (splitOnCharL '|' s.data).map String.mk

/-- The slice of `TaskProgressBarSettings` consumed by the sort engine.
`taskStatusMarks` and `taskStatuses` are JavaScript objects, embedded as
association lists iterated in insertion order. -/
structure PBSettings where
  taskStatusCycle : List String
  taskStatusMarks : List (String × String)
  excludeMarksFromCycle : List String
  taskStatuses : List (String × String)
deriving DecidableEq

/-- JavaScript `o || d` for an optional string: `undefined` and `""` fall
back to the default. -/
def orDefaultStr (o : Option String) (d : String) : String :=
  match o with
  | some v => if v = "" then d else v
  | none => d

/-- `(settings.taskStatuses?.completed || "x|X").split("|")`. -/
def completedMarkersOf (s : PBSettings) : List String :=
  splitBar (orDefaultStr (s.taskStatuses.lookup "completed") "x|X")

/-- `(settings.taskStatuses?.abandoned || "-").split("|")`. -/
def cancelledMarkersOf (s : PBSettings) : List String :=
  splitBar (orDefaultStr (s.taskStatuses.lookup "abandoned") "-")

/-- Guarded assignment `if (!(mark in order)) order[mark] = r`; every
assignment in `getDynamicStatusOrder` except the initial overdue entry is
guarded, so entries are only ever appended. -/
def insertIfAbsent (ord : List (String × Nat)) (m : String) (r : Nat) : List (String × Nat) :=
  if (ord.lookup m).isSome then ord else ord ++ [(m, r)]

/-- State of the cycle walk: the order table, the next sequential rank, and
the deferred completed/cancelled buckets. -/
structure CycleState where
  ord : List (String × Nat)
  ctr : Nat
  compC : List String
  cancC : List String

/-- One step of the cycle walk of `getDynamicStatusOrder`. -/
def cycleStep (comp canc : List String) (marks : List (String × String))
    (exclude : List String) (st : CycleState) (name : String) : CycleState :=
  match marks.lookup name with
  | none => st
  | some m =>
    if m = "" then st
    else if exclude.contains name then st
    else if comp.contains m then { st with compC := st.compC ++ [m] }
    else if canc.contains m then { st with cancC := st.cancC ++ [m] }
    else if (st.ord.lookup m).isSome then st
    else { st with ord := st.ord ++ [(m, st.ctr)], ctr := st.ctr + 1 }

/-- One marker of the fallback walk over `settings.taskStatuses`. -/
def fallbackMarkStep (comp canc : List String)
    (st : List (String × Nat) × Nat) (m : String) : List (String × Nat) × Nat :=
  if m = "" then st
  else if (st.1.lookup m).isSome then st
  else if comp.contains m then (st.1 ++ [(m, 98)], st.2)
  else if canc.contains m then (st.1 ++ [(m, 99)], st.2)
  else (st.1 ++ [(m, st.2)], st.2 + 1)

/-- The state after the cycle walk of `getDynamicStatusOrder`: overdue is
rank 1, non-bucket cycle marks take sequential ranks from 2, bucket marks
are deferred. -/
def cycleStage (s : PBSettings) : CycleState :=
  s.taskStatusCycle.foldl
    (cycleStep (completedMarkersOf s) (cancelledMarkersOf s)
      s.taskStatusMarks s.excludeMarksFromCycle)
    ⟨[("overdue", 1)], 2, [], []⟩

/-- The table after appending the deferred completed bucket at 98 and the
deferred cancelled bucket at 99. -/
def bucketStage (s : PBSettings) : List (String × Nat) :=
  (cycleStage s).cancC.foldl (fun o m => insertIfAbsent o m 99)
    ((cycleStage s).compC.foldl (fun o m => insertIfAbsent o m 98) (cycleStage s).ord)

/-- The rank table before the two default entries: the bucket stage
followed by the fallback walk over all configured marker strings. -/
def preDefaultOrder (s : PBSettings) : List (String × Nat) × Nat :=
  s.taskStatuses.foldl
    (fun st kv => (splitBar kv.2).foldl
      (fallbackMarkStep (completedMarkersOf s) (cancelledMarkersOf s)) st)
    (bucketStage s, (cycleStage s).ctr)

/-- `getDynamicStatusOrder` of `forecastStore.ts`. -/
def getDynamicStatusOrder (s : PBSettings) : List (String × Nat) :=
  insertIfAbsent (insertIfAbsent (preDefaultOrder s).1 " " 10) "x" 98

/-- `statusOrder[status] ?? 1000` as used by the status comparator. -/
def statusVal (ord : List (String × Nat)) (st : String) : Int :=
  match ord.lookup st with
  | some n => (n : Int)
  | none => 1000

/-! ## `compareTasks` and `sortTasks` -/

/-- The fields of the generic task shape consumed by `compareTasks`;
optional strings use `""` for `undefined` (both are falsy where the source
tests truthiness). -/
structure SortTask where
  calculatedStatus : String := ""
  status : String := ""
  completed : Bool := false
  priority : Option Int := none
  dueDate : Option Int := none
  startDate : Option Int := none
  scheduledDate : Option Int := none
  content : String := ""
  lineNumber : Option Int := none
deriving DecidableEq

structure SortCriterion where
  field : String
  order : String
deriving DecidableEq

/-- `a.calculatedStatus || a.status || ""`. -/
def statusKeyOf (a : SortTask) : String :=
  if a.calculatedStatus ≠ "" then a.calculatedStatus else a.status

/-- Modelled from the spec: the `Intl.Collator` comparison (platform
builtin), locale-aware and case-insensitive; embedded as case-insensitive
code-point comparison returning a sign. -/
def ccmp (a b : Char) : Int :=
  if a.toNat < b.toNat then -1 else if b.toNat < a.toNat then 1 else 0

def lexCmp : List Char → List Char → Int
  | [], [] => 0
  | [], _ :: _ => -1
  | _ :: _, [] => 1
  | a :: x, b :: y => if ccmp a b = 0 then lexCmp x y else ccmp a b

def collatorCmp (a b : String) : Int :=
  lexCmp (a.data.map Char.toLower) (b.data.map Char.toLower)

/-- `sortFactory.status`. -/
def cmpStatus (ord : List (String × Nat)) (dir : String) (a b : SortTask) : Int :=
  let c := statusVal ord (statusKeyOf a) - statusVal ord (statusKeyOf b)
  if dir = "asc" then c else -c

/-- `sortFactory.priority`: the missing-priority branches produce +1 and -1
and the final line negates the comparison in ascending direction. -/
def cmpPriority (dir : String) (a b : SortTask) : Int :=
  let c :=
    match a.priority, b.priority with
    | none, none => 0
    | none, some _ => 1
    | some _, none => -1
    | some x, some y => x - y
  if dir = "asc" then -c else c

/-- The shared `sortByDate` helper for due, start and scheduled dates. -/
def cmpDateField (f : SortTask → Option Int) (dir : String) (a b : SortTask) : Int :=
  let c :=
    match f a, f b with
    | none, none => 0
    | none, some _ => 1
    | some _, none => -1
    | some x, some y => x - y
  if dir = "asc" then c else -c

/-- `sortFactory.content`. -/
def cmpContent (dir : String) (a b : SortTask) : Int :=
  if a.content = "" && b.content = "" then 0
  else if a.content = "" then (if dir = "asc" then 1 else -1)
  else if b.content = "" then (if dir = "asc" then -1 else 1)
  else
    let c := collatorCmp a.content b.content
    if dir = "asc" then c else -c

/-- Dispatch on `criterion.field`; a field absent from the factory is
skipped, which the first-nonzero loop makes equivalent to returning 0. -/
def applySortCriterion (ord : List (String × Nat)) (c : SortCriterion)
    (a b : SortTask) : Int :=
  if c.field = "status" then cmpStatus ord c.order a b
  else if c.field = "priority" then cmpPriority c.order a b
  else if c.field = "dueDate" then cmpDateField (·.dueDate) c.order a b
  else if c.field = "startDate" then cmpDateField (·.startDate) c.order a b
  else if c.field = "scheduledDate" then cmpDateField (·.scheduledDate) c.order a b
  else if c.field = "content" then cmpContent c.order a b
  else 0

/-- First non-zero criterion wins; otherwise fall back to the line-number
difference when both line numbers are present. -/
def criteriaLoop (ord : List (String × Nat)) (a b : SortTask) :
    List SortCriterion → Int
  | [] =>
    match a.lineNumber, b.lineNumber with
    | some la, some lb => la - lb
    | _, _ => 0
  | c :: rest =>
    if applySortCriterion ord c a b = 0 then criteriaLoop ord a b rest
    else applySortCriterion ord c a b

/-- `compareTasks` of `forecastStore.ts`: completed tasks always compare
after incomplete ones, then the criteria in order, then the stable
line-number fallback. -/
def compareTasks (a b : SortTask) (criteria : List SortCriterion)
    (ord : List (String × Nat)) : Int :=
  if a.completed ≠ b.completed then (if a.completed then 1 else -1)
  else criteriaLoop ord a b criteria

/-- The `preparedTasks` map of `sortTasks`: a task without a truthy
`calculatedStatus` receives `task.status || ""`. -/
def prepareTask (t : SortTask) : SortTask :=
  if t.calculatedStatus ≠ "" then t else { t with calculatedStatus := t.status }

/-- `sortTasks` of `forecastStore.ts`, with the ECMAScript stable sort
embedded as stable insertion sort on `compareTasks ≤ 0`. -/
def sortTasks (tasks : List SortTask) (criteria : List SortCriterion)
    (s : PBSettings) : List SortTask :=
  let ord := getDynamicStatusOrder s
  sortLe (fun a b => decide (compareTasks a b criteria ord ≤ 0)) (tasks.map prepareTask)

/-! ## `parseTasksForSorting` and `findContinuousTaskBlocks` -/

/-- The fields of a `SortableTask`; parent links are implicit in the tree
structure below. -/
structure SRec where
  id : String
  originalMarkdown : String
  status : String
  completed : Bool
  content : String
  priority : Option Int
  dueDate : Option Int
  startDate : Option Int
  scheduledDate : Option Int
  tags : List String
  lineNumber : Nat
  indentation : Nat
  calculatedStatus : String
deriving DecidableEq

/-- A `SortableTask` with its owned children, as built by
`parseTasksForSorting`. -/
inductive SNode where
  | node (val : SRec) (children : List SNode)

def lineOf : SNode → Nat
  | .node d _ => d.lineNumber

mutual

/-- `getMaxLineNumberWithChildren`: the recursive maximum line number over a
task and all its descendants. -/
def maxLineWithChildren : SNode → Nat
  | .node d cs => maxLineOver d.lineNumber cs

def maxLineOver : Nat → List SNode → Nat
  | m, [] => m
  | m, c :: cs => maxLineOver (max m (maxLineWithChildren c)) cs

end

/-- Modelled from the spec: `parseTaskLine` (absent
`src/utils/taskUtil.ts`), the Line Parser applying every extractor in the
fixed order to a single line. -/
def parseTaskLine (filePath line : String) (lineNum : Nat) (fmt : MetadataFormat) :
    Option WTask :=
  (matchTaskLine line).map fun sc =>
    runExtractors (mkBaseTask filePath lineNum line sc.1 sc.2) sc.2 fmt

/-- The calculated status of `parseTasksForSorting`: overdue when the task
is incomplete, not cancelled, and has a truthy due date earlier than today;
otherwise the raw status (the enum-membership test in the source maps a
status string to itself in both branches).  `today` makes the source's
`new Date()` an explicit parameter. -/
def calcStatus (t : WTask) (today : Int) : String :=
  if !t.completed && t.status ≠ "-" &&
      (match t.dueDate with | some d => d ≠ 0 && d < today | none => false) then
    "overdue"
  else t.status

/-- `getIndentationLevel` of `forecastStore.ts` (`/^(\s*)/`). -/
def getIndentationLevel (line : String) : Nat :=
  (line.data.takeWhile isWsChar).length

def toSRec (t : WTask) (lineNumber indentation : Nat) (today : Int) : SRec :=
  { id := t.id
    originalMarkdown := t.originalMarkdown
    status := t.status
    completed := t.completed
    content := t.content
    priority := t.priority
    dueDate := t.dueDate
    startDate := t.startDate
    scheduledDate := t.scheduledDate
    tags := t.tags
    lineNumber := lineNumber
    indentation := indentation
    calculatedStatus := calcStatus t today }

/-- Close stack entries whose indentation is at least `ind`: each popped
entry becomes a finished subtree attached to the next entry below, or to
the root list when the stack empties.  This realises the source's
push-into-`parent.children`-at-creation mutation functionally: an entry's
child list is complete exactly when it is popped. -/
def pfsPopF (ind : Nat) : Nat → List SNode → List (SRec × List SNode) →
    List SNode × List (SRec × List SNode)
  | _, roots, [] => (roots, [])
  | 0, roots, stk => (roots, stk)
  | f + 1, roots, (d, cs) :: stk =>
    if ind ≤ d.indentation then
      match stk with
      | [] => (roots ++ [SNode.node d cs], [])
      | (d2, cs2) :: stk2 => pfsPopF ind f roots ((d2, cs2 ++ [SNode.node d cs]) :: stk2)
    else (roots, (d, cs) :: stk)

def pfsPop (ind : Nat) (st : List SNode × List (SRec × List SNode)) :
    List SNode × List (SRec × List SNode) :=
  pfsPopF ind st.2.length st.1 st.2

/-- Process one parsed record: pop the stack down to a strict out-indent,
then push the record with an empty child list. -/
def pfsRecStep (st : List SNode × List (SRec × List SNode)) (r : SRec) :
    List SNode × List (SRec × List SNode) :=
  let st2 := pfsPop r.indentation st
  (st2.1, (r, []) :: st2.2)

/-- Flush the stack at end of input (indentation 0 closes everything). -/
def pfsFlush (st : List SNode × List (SRec × List SNode)) : List SNode :=
  (pfsPop 0 st).1

/-- The record a line contributes, if it parses as a task: absolute
(0-based) line number, indentation of the raw line, 1-based line number for
the id. -/
def taskRecOfLine (off : Nat) (filePath : String) (fmt : MetadataFormat)
    (today : Int) (p : Nat × String) : Option SRec :=
  (parseTaskLine filePath p.2 (off + p.1 + 1) fmt).map fun t =>
    toSRec t (off + p.1) (getIndentationLevel p.2) today

/-- One line of the `parseTasksForSorting` fold: a non-task line leaves the
state untouched, a task line goes through `pfsRecStep`. -/
def pfsLineStep (off : Nat) (fp : String) (fmt : MetadataFormat) (today : Int)
    (s : List SNode × List (SRec × List SNode)) (p : Nat × String) :
    List SNode × List (SRec × List SNode) :=
  match taskRecOfLine off fp fmt today p with
  | none => s
  | some r => pfsRecStep s r

/-- `parseTasksForSorting` of `forecastStore.ts`: split the block into
lines, fold over them keeping the ancestor stack across non-task lines, and
return the top-level forest. -/
def parseTasksForSorting (blockText : String) (lineOffset : Nat)
    (filePath : String) (fmt : MetadataFormat) (today : Int) : List SNode :=
  pfsFlush (((splitOnCharL '\n' blockText.data).map String.mk).enum.foldl
    (pfsLineStep lineOffset filePath fmt today)
    (([], []) : List SNode × List (SRec × List SNode)))

/-- The same fold applied directly to a list of already-extracted records
(the behaviour with all non-task lines deleted). -/
def buildForestOfRecs (recs : List SRec) : List SNode :=
  pfsFlush (recs.foldl pfsRecStep (([], []) : List SNode × List (SRec × List SNode)))

/-- The block-continuation rule of `findContinuousTaskBlocks`: the current
task joins the block when its line number is at most one past the previous
task's maximum descendant line. -/
def contRel (p c : SNode) : Bool :=
  Nat.ble (lineOf c) (maxLineWithChildren p + 1)

/-- The accumulator loop of `findContinuousTaskBlocks`. -/
def fctbGo : SNode → List SNode → List (List SNode) → List SNode → List (List SNode)
  | _, cur, blocks, [] => blocks ++ [cur]
  | prev, cur, blocks, c :: rest =>
    if contRel prev c then fctbGo c (cur ++ [c]) blocks rest
    else fctbGo c [c] (blocks ++ [cur]) rest

/-- `findContinuousTaskBlocks` of `forecastStore.ts`. -/
def findContinuousTaskBlocks (tasks : List SNode) : List (List SNode) :=
  match sortLe (fun a b => Nat.ble (lineOf a) (lineOf b)) tasks with
  | [] => []
  | t :: ts => fctbGo t [t] [] ts

/-- Grouping of consecutive elements by an adjacency relation — the shape in
which the specification states the block rule. -/
def groupByAdj (r : α → α → Bool) : List α → List (List α)
  | [] => []
  | [a] => [[a]]
  | a :: b :: rest =>
    match groupByAdj r (b :: rest) with
    | [] => [[a]]
    | g :: gs => if r a b then (a :: g) :: gs else [a] :: g :: gs

/-! ## Example data used by claim instances -/

/-- A minimal sortable record carrying only an id and a line number. -/
def simpleSRec (idStr : String) (ln : Nat) : SRec :=
  ⟨idStr, "", "", false, "", none, none, none, none, [], ln, 0, ""⟩

/-- Records at lines 3, 4, 6, 10 where the line-3 record owns a child at
line 5. -/
def exBlockTasks : List SNode :=
  [.node (simpleSRec "t3" 3) [.node (simpleSRec "t5" 5) []],
   .node (simpleSRec "t4" 4) [],
   .node (simpleSRec "t6" 6) [],
   .node (simpleSRec "t10" 10) []]

/-- A bare worker task at a given line with a given raw line text. -/
def exTask (i : Nat) (md : String) : WTask :=
  { id := "f.md-L" ++ toString i
    content := ""
    filePath := "f.md"
    line := i
    completed := false
    status := " "
    originalMarkdown := md
    tags := []
    children := [] }

/-- Lines at indentations 0, 2, 2, 0. -/
def exHierTasks : List WTask :=
  [exTask 0 "- [ ] a", exTask 1 "  - [ ] b", exTask 2 "  - [ ] c", exTask 3 "- [ ] d"]

/-- The task produced by parsing the line `"- [x] hi"`. -/
def c1WitnessTask : WTask :=
  { id := "f.md-L0", content := "hi", filePath := "f.md", line := 0,
    completed := true, status := "x", originalMarkdown := "- [x] hi",
    tags := [], children := [] }

/-- The task produced by parsing `"- [ ] a #home #project/x"` in dataview
format. -/
def c8WitnessTask : WTask :=
  { id := "f.md-L0", content := "a #project/x", filePath := "f.md", line := 0,
    completed := false, status := " ",
    originalMarkdown := "- [ ] a #home #project/x",
    tags := ["#home"], children := [], project := some "x" }

/-- The stack of the worker's hierarchy walk after processing a task list. -/
def hierStackAux (stack : List (String × Nat)) : List WTask → List (String × Nat)
  | [] => stack
  | t :: rest =>
    let ind := getIndentLevel t.originalMarkdown
    hierStackAux ((t.id, ind) :: stack.dropWhile (fun e => ind ≤ e.2)) rest

/-- Rank consistency of a status table with respect to the completed and
cancelled marker sets. -/
def RankConsistent (comp canc : List String) (ord : List (String × Nat)) : Prop :=
  ∀ m r, List.lookup m ord = some r →
    (m ∈ comp → r = 98) ∧ (m ∈ canc → m ∉ comp → r = 99)

/-- Every existing entry of one table also appears (with the same rank) in
another. -/
def SubOrder (ord ord' : List (String × Nat)) : Prop :=
  ∀ m r, List.lookup m ord = some r → List.lookup m ord' = some r

/-- Every nonempty marker listed in the `taskStatuses` configuration has an
entry in the table. -/
def MarksCovered (s : PBSettings) (ord : List (String × Nat)) : Prop :=
  ∀ k v m, (k, v) ∈ s.taskStatuses → m ∈ splitBar v → m ≠ "" →
    (List.lookup m ord).isSome = true

/-! ## Generic lemmas about the stable insertion sort -/

theorem mem_insertLe {le : α → α → Bool} {a x : α} {l : List α} :
    x ∈ insertLe le a l ↔ x = a ∨ x ∈ l := by
  induction l with
  | nil => simp [insertLe]
  | cons b t ih =>
    simp only [insertLe]
    split
    · simp
    · simp only [List.mem_cons, ih]
      tauto

theorem mem_sortLe {le : α → α → Bool} {x : α} {l : List α} :
    x ∈ sortLe le l ↔ x ∈ l := by
  induction l with
  | nil => simp [sortLe]
  | cons a t ih => simp [sortLe, mem_insertLe, ih]

/-- A chain of adjacent `le` facts. -/
def ChainLe (le : α → α → Bool) (l : List α) : Prop :=
  List.Chain' (fun x y => le x y = true) l

theorem chainLe_insertLe {le : α → α → Bool}
    (tot : ∀ x y, le x y = true ∨ le y x = true) (a : α) {l : List α}
    (h : ChainLe le l) : ChainLe le (insertLe le a l) := by
  induction l with
  | nil => simp [insertLe, ChainLe]
  | cons b t ih =>
    simp only [insertLe]
    split
    · exact List.chain'_cons.mpr ⟨by assumption, h⟩
    · have h2 : ChainLe le t := h.tail
      have ih' := ih h2
      apply List.chain'_cons'.mpr
      refine ⟨?_, ih'⟩
      intro y hy
      cases t with
      | nil =>
        simp [insertLe] at hy
        subst hy
        rcases tot a b with hab | hba
        · simp_all
        · exact hba
      | cons c t' =>
        simp only [insertLe] at hy
        split at hy
        · simp only [List.head?_cons, Option.mem_def, Option.some.injEq] at hy
          subst hy
          rcases tot a b with hab | hba
          · simp_all
          · exact hba
        · simp only [List.head?_cons, Option.mem_def, Option.some.injEq] at hy
          subst hy
          exact (List.chain'_cons.mp h).1

theorem chainLe_sortLe {le : α → α → Bool}
    (tot : ∀ x y, le x y = true ∨ le y x = true) (l : List α) :
    ChainLe le (sortLe le l) := by
  induction l with
  | nil => simp [sortLe, ChainLe]
  | cons a t ih => exact chainLe_insertLe tot a ih

theorem sortLe_eq_self {le : α → α → Bool} {l : List α} (h : ChainLe le l) :
    sortLe le l = l := by
  induction l with
  | nil => rfl
  | cons a t ih =>
    have ht := ih h.tail
    simp only [sortLe, ht]
    cases t with
    | nil => rfl
    | cons b t' =>
      have hab : le a b = true := (List.chain'_cons.mp h).1
      simp [insertLe, hab]

theorem sortLe_idem {le : α → α → Bool}
    (tot : ∀ x y, le x y = true ∨ le y x = true) (l : List α) :
    sortLe le (sortLe le l) = sortLe le l :=
  sortLe_eq_self (chainLe_sortLe tot l)

/-! ## Antisymmetry of `compareTasks` -/

theorem ccmp_neg (a b : Char) : ccmp b a = -ccmp a b := by
  unfold ccmp
  split_ifs <;> omega

theorem lexCmp_neg (x : List Char) : ∀ y, lexCmp y x = -lexCmp x y := by
  induction x with
  | nil => intro y; cases y <;> simp [lexCmp]
  | cons a x ih =>
    intro y
    cases y with
    | nil => simp [lexCmp]
    | cons b y' =>
      simp only [lexCmp]
      have h := ccmp_neg a b
      by_cases hc : ccmp a b = 0
      · have hb : ccmp b a = 0 := by rw [h, hc]; ring
        simp [hc, hb, ih y']
      · have hb : ccmp b a ≠ 0 := by rw [h]; omega
        simp [hc, hb, h]

theorem collatorCmp_neg (a b : String) : collatorCmp b a = -collatorCmp a b := by
  unfold collatorCmp
  exact lexCmp_neg _ _

theorem cmpStatus_neg (ord : List (String × Nat)) (dir : String) (a b : SortTask) :
    cmpStatus ord dir b a = -cmpStatus ord dir a b := by
  unfold cmpStatus
  split_ifs <;> ring

theorem cmpPriority_neg (dir : String) (a b : SortTask) :
    cmpPriority dir b a = -cmpPriority dir a b := by
  unfold cmpPriority
  rcases ha : a.priority with _ | x <;> rcases hb : b.priority with _ | y <;>
    simp only [ha, hb] <;> by_cases hd : dir = "asc" <;>
    simp only [hd, ite_true, ite_false, eq_self_iff_true, not_false_iff, if_neg] <;>
    norm_num

theorem cmpDateField_neg (f : SortTask → Option Int) (dir : String) (a b : SortTask) :
    cmpDateField f dir b a = -cmpDateField f dir a b := by
  unfold cmpDateField
  rcases ha : f a with _ | x <;> rcases hb : f b with _ | y <;>
    simp only [ha, hb] <;> by_cases hd : dir = "asc" <;>
    simp only [hd, ite_true, ite_false, eq_self_iff_true, not_false_iff, if_neg] <;>
    norm_num

theorem cmpContent_neg (dir : String) (a b : SortTask) :
    cmpContent dir b a = -cmpContent dir a b := by
  unfold cmpContent
  have h := collatorCmp_neg a.content b.content
  split_ifs <;> simp_all

theorem applySortCriterion_neg (ord : List (String × Nat)) (c : SortCriterion)
    (a b : SortTask) : applySortCriterion ord c b a = -applySortCriterion ord c a b := by
  unfold applySortCriterion
  split_ifs
  · exact cmpStatus_neg ord c.order a b
  · exact cmpPriority_neg c.order a b
  · exact cmpDateField_neg _ c.order a b
  · exact cmpDateField_neg _ c.order a b
  · exact cmpDateField_neg _ c.order a b
  · exact cmpContent_neg c.order a b
  · ring

theorem criteriaLoop_neg (ord : List (String × Nat)) (a b : SortTask)
    (criteria : List SortCriterion) :
    criteriaLoop ord b a criteria = -criteriaLoop ord a b criteria := by
  induction criteria with
  | nil =>
    simp only [criteriaLoop]
    cases a.lineNumber <;> cases b.lineNumber <;> simp
  | cons c rest ih =>
    simp only [criteriaLoop]
    have h := applySortCriterion_neg ord c a b
    by_cases hz : applySortCriterion ord c a b = 0
    · have hz' : applySortCriterion ord c b a = 0 := by rw [h, hz]; ring
      simp [hz, hz', ih]
    · have hz' : applySortCriterion ord c b a ≠ 0 := by rw [h]; omega
      simp [hz, hz', h]

theorem compareTasks_neg (a b : SortTask) (criteria : List SortCriterion)
    (ord : List (String × Nat)) :
    compareTasks b a criteria ord = -compareTasks a b criteria ord := by
  unfold compareTasks
  by_cases hc : a.completed = b.completed
  · rw [if_neg (by simp [hc]), if_neg (by simp [hc])]
    exact criteriaLoop_neg ord a b criteria
  · have hc' : ¬b.completed = a.completed := fun h => hc h.symm
    rw [if_pos hc', if_pos hc]
    cases ha : a.completed <;> cases hb : b.completed <;> simp_all

theorem compareTasks_total (criteria : List SortCriterion) (ord : List (String × Nat))
    (a b : SortTask) :
    decide (compareTasks a b criteria ord ≤ 0) = true ∨
    decide (compareTasks b a criteria ord ≤ 0) = true := by
  have h := compareTasks_neg a b criteria ord
  by_cases hle : compareTasks a b criteria ord ≤ 0
  · left; exact decide_eq_true hle
  · right
    apply decide_eq_true
    omega

/-! ## Idempotence of `sortTasks` (claim C5 support) -/

theorem prepareTask_idem (t : SortTask) : prepareTask (prepareTask t) = prepareTask t := by
  unfold prepareTask
  by_cases h : t.calculatedStatus ≠ ""
  · simp [h]
  · simp only [h, if_neg, ite_not]
    push_neg at h
    by_cases hs : t.status = ""
    · simp [hs, h]
    · simp [hs, h]

theorem map_eq_self_of_mem {f : α → α} {l : List α} (h : ∀ x ∈ l, f x = x) :
    l.map f = l := by
  induction l with
  | nil => rfl
  | cons a t ih =>
    simp only [List.map_cons, h a (List.mem_cons_self a t),
      ih fun x hx => h x (List.mem_cons_of_mem a hx)]

theorem sortTasks_idem (tasks : List SortTask) (criteria : List SortCriterion)
    (s : PBSettings) :
    sortTasks (sortTasks tasks criteria s) criteria s = sortTasks tasks criteria s := by
  unfold sortTasks
  have tot := compareTasks_total criteria (getDynamicStatusOrder s)
  have hfix : ∀ x ∈ sortLe
      (fun a b => decide (compareTasks a b criteria (getDynamicStatusOrder s) ≤ 0))
      (tasks.map prepareTask), prepareTask x = x := by
    intro x hx
    rcases List.mem_map.mp (mem_sortLe.mp hx) with ⟨y, _, rfl⟩
    exact prepareTask_idem y
  rw [map_eq_self_of_mem hfix]
  exact sortLe_idem tot _

theorem criteriaLoop_all_zero (ord : List (String × Nat)) (a b : SortTask)
    (criteria : List SortCriterion)
    (h : ∀ c ∈ criteria, applySortCriterion ord c a b = 0) :
    criteriaLoop ord a b criteria =
      (match a.lineNumber, b.lineNumber with
       | some la, some lb => la - lb
       | _, _ => 0) := by
  induction criteria with
  | nil => rfl
  | cons c rest ih =>
    have hc := h c (List.mem_cons_self c rest)
    simp only [criteriaLoop, hc, if_pos]
    exact ih fun d hd => h d (List.mem_cons_of_mem c hd)

/-- Claim C5: sorting is idempotent — re-sorting an already-sorted
collection with the same criteria and settings is a no-op — and when both
tasks have equal `completed` flags and every listed criterion compares them
equal, `compareTasks` falls back to the ascending original line-number
difference, making the comparison deterministic. -/
theorem c5_sort_idempotent_and_line_fallback :
    (∀ (tasks : List SortTask) (criteria : List SortCriterion) (s : PBSettings),
      sortTasks (sortTasks tasks criteria s) criteria s = sortTasks tasks criteria s) ∧
    (∀ (a b : SortTask) (criteria : List SortCriterion) (ord : List (String × Nat))
      (la lb : Int),
      a.completed = b.completed →
      (∀ c ∈ criteria, applySortCriterion ord c a b = 0) →
      a.lineNumber = some la → b.lineNumber = some lb →
      compareTasks a b criteria ord = la - lb) := by
  constructor
  · exact sortTasks_idem
  · intro a b criteria ord la lb hcomp hall hla hlb
    unfold compareTasks
    rw [if_neg (by simp [hcomp])]
    rw [criteriaLoop_all_zero ord a b criteria hall, hla, hlb]

/-- Closed instance of C5 at concrete inputs. -/
theorem c5_witness :
    sortTasks (sortTasks [{ status := "x", lineNumber := some 4 },
        { status := " ", lineNumber := some 7 }] [⟨"status", "asc"⟩] ⟨[], [], [], []⟩)
      [⟨"status", "asc"⟩] ⟨[], [], [], []⟩ =
      sortTasks [{ status := "x", lineNumber := some 4 },
        { status := " ", lineNumber := some 7 }] [⟨"status", "asc"⟩] ⟨[], [], [], []⟩ ∧
    compareTasks { lineNumber := some 5 } { lineNumber := some 3 } [] [] = 5 - 3 :=
  ⟨c5_sort_idempotent_and_line_fallback.1 _ _ _,
   c5_sort_idempotent_and_line_fallback.2 _ _ [] [] 5 3 rfl (by simp) rfl rfl⟩

/-- Claim C2 (code bug): under an ascending priority criterion, a task with
no priority compares strictly before a task that has one — `compareTasks`
returns -1 for (no-priority, priority 1) and 1 for the swap — contradicting
the spec and the comparator's own comments, which place missing priorities
last in both directions.  The remaining parts of the claim do hold: with
both priorities present, ascending places the higher value first, and in
descending direction a missing priority sorts last. -/
theorem c2_priority_asc_places_missing_first :
    compareTasks { lineNumber := some 0 }
      { priority := some 1, lineNumber := some 1 } [⟨"priority", "asc"⟩] [] = -1 ∧
    compareTasks { priority := some 1, lineNumber := some 1 }
      { lineNumber := some 0 } [⟨"priority", "asc"⟩] [] = 1 ∧
    compareTasks { priority := some 3, lineNumber := some 0 }
      { priority := some 1, lineNumber := some 1 } [⟨"priority", "asc"⟩] [] = -2 ∧
    compareTasks { lineNumber := some 0 }
      { priority := some 1, lineNumber := some 1 } [⟨"priority", "desc"⟩] [] = 1 := by
  decide

/-! ## Claim C7: block grouping -/

theorem groupByAdj_cons_cons (r : α → α → Bool) (a b : α) (t : List α) :
    groupByAdj r (a :: b :: t) =
      match groupByAdj r (b :: t) with
      | [] => [[a]]
      | g :: gs => if r a b then (a :: g) :: gs else [a] :: g :: gs := rfl

theorem groupByAdj_cons_decomp (r : α → α → Bool) (a : α) (l : List α) :
    ∃ g gs, groupByAdj r (a :: l) = (a :: g) :: gs := by
  induction l generalizing a with
  | nil => exact ⟨[], [], rfl⟩
  | cons b t ih =>
    rcases ih b with ⟨g, gs, hg⟩
    by_cases hr : r a b = true
    · refine ⟨b :: g, gs, ?_⟩
      rw [groupByAdj_cons_cons, hg]
      exact if_pos hr
    · refine ⟨[], (b :: g) :: gs, ?_⟩
      rw [groupByAdj_cons_cons, hg]
      exact if_neg hr

theorem fctbGo_spec (rest : List SNode) :
    ∀ (prev : SNode) (cur : List SNode) (blocks : List (List SNode))
      (g : List SNode) (gs : List (List SNode)),
    groupByAdj contRel (prev :: rest) = (prev :: g) :: gs →
    fctbGo prev cur blocks rest = blocks ++ ((cur ++ g) :: gs) := by
  induction rest with
  | nil =>
    intro prev cur blocks g gs h
    simp only [groupByAdj, List.cons.injEq, true_and] at h
    obtain ⟨hg, hgs⟩ := h
    rw [← hg, ← hgs]
    simp [fctbGo]
  | cons c rest ih =>
    intro prev cur blocks g gs h
    rcases groupByAdj_cons_decomp contRel c rest with ⟨g2, gs2, hg2⟩
    rw [groupByAdj_cons_cons, hg2] at h
    dsimp only at h
    by_cases hr : contRel prev c = true
    · rw [if_pos hr] at h
      have h1 := (List.cons.injEq _ _ _ _).mp h
      have hgEq : g = c :: g2 := ((List.cons.injEq _ _ _ _).mp h1.1).2.symm
      have hgsEq : gs = gs2 := h1.2.symm
      rw [hgEq, hgsEq]
      simp only [fctbGo, hr, if_pos]
      rw [ih c (cur ++ [c]) blocks g2 gs2 hg2]
      simp
    · rw [if_neg hr] at h
      have h1 := (List.cons.injEq _ _ _ _).mp h
      have hgEq : g = [] := ((List.cons.injEq _ _ _ _).mp h1.1).2.symm
      have hgsEq : gs = (c :: g2) :: gs2 := h1.2.symm
      rw [hgEq, hgsEq]
      simp only [fctbGo]
      rw [if_neg hr]
      rw [ih c [c] (blocks ++ [cur]) g2 gs2 hg2]
      simp

theorem findContinuousTaskBlocks_eq_groupByAdj (tasks : List SNode) :
    findContinuousTaskBlocks tasks =
      groupByAdj contRel (sortLe (fun a b => Nat.ble (lineOf a) (lineOf b)) tasks) := by
  unfold findContinuousTaskBlocks
  cases hs : sortLe (fun a b => Nat.ble (lineOf a) (lineOf b)) tasks with
  | nil => rfl
  | cons t ts =>
    rcases groupByAdj_cons_decomp contRel t ts with ⟨g, gs, hg⟩
    dsimp only
    rw [fctbGo_spec ts t [t] [] g gs hg, hg]
    simp

/-- Claim C7 (amended): after sorting by line number, a task joins the
current block exactly when its line number is at most one greater than the
maximum descendant line of the immediately preceding sorted task —
`findContinuousTaskBlocks` is exactly adjacent grouping by that relation —
but on the claim's instance (tasks at lines 3, 4, 6, 10 with a child of the
line-3 task at line 5) this yields the blocks [3,4], [6], [10]: the line-6
task starts a new block because its predecessor is the line-4 task, whose
maximum descendant line is 4. -/
theorem c7_blocks_adjacent_grouping :
    (∀ tasks : List SNode,
      findContinuousTaskBlocks tasks =
        groupByAdj contRel (sortLe (fun a b => Nat.ble (lineOf a) (lineOf b)) tasks)) ∧
    (findContinuousTaskBlocks exBlockTasks).map (fun blk => blk.map lineOf) =
      [[3, 4], [6], [10]] :=
  ⟨findContinuousTaskBlocks_eq_groupByAdj, by decide⟩

/-- Counterexample to claim C7 as stated: the claimed instance output
[[3,4,6],[10]] is not what `findContinuousTaskBlocks` produces. -/
theorem c7_counterexample :
    (findContinuousTaskBlocks exBlockTasks).map (fun blk => blk.map lineOf) ≠
      [[3, 4, 6], [10]] ∧
    (findContinuousTaskBlocks exBlockTasks).map (fun blk => blk.map lineOf) =
      [[3, 4], [6], [10]] := by
  decide

/-! ## Claim C6: hierarchy building -/

theorem dropWhile_eq_filter_of_pairwise (i : Nat) :
    ∀ (stack : List (String × Nat)),
    List.Pairwise (fun a b : String × Nat => b.2 < a.2) stack →
    stack.dropWhile (fun e => i ≤ e.2) = stack.filter (fun e => e.2 < i) := by
  intro stack
  induction stack with
  | nil => intro _; rfl
  | cons e es ih =>
    intro hp
    have he : ∀ b ∈ es, b.2 < e.2 := (List.pairwise_cons.mp hp).1
    have hes := ih (List.pairwise_cons.mp hp).2
    by_cases hi : i ≤ e.2
    · rw [List.dropWhile_cons_of_pos (by simpa using hi)]
      rw [List.filter_cons_of_neg (by simpa using hi)]
      exact hes
    · rw [List.dropWhile_cons_of_neg (by simpa using hi)]
      rw [List.filter_cons_of_pos (by simpa using Nat.lt_of_not_le hi)]
      congr 1
      symm
      apply List.filter_eq_self.mpr
      intro b hb
      have := he b hb
      simp only [decide_eq_true_eq]
      omega

theorem hierStack_pairwise :
    ∀ (l : List WTask) (stack : List (String × Nat)),
    List.Pairwise (fun a b : String × Nat => b.2 < a.2) stack →
    List.Pairwise (fun a b : String × Nat => b.2 < a.2) (hierStackAux stack l) := by
  intro l
  induction l with
  | nil => intro stack hp; exact hp
  | cons t rest ih =>
    intro stack hp
    simp only [hierStackAux]
    apply ih
    rw [dropWhile_eq_filter_of_pairwise _ _ hp]
    apply List.pairwise_cons.mpr
    constructor
    · intro b hb
      have := List.of_mem_filter hb
      simpa using this
    · exact hp.sublist (List.filter_sublist _)

/-- Claim C6: processing a record pops exactly the stack entries whose
indentation is at least the record's (leaving the entries that strictly
under-indent it), the record's parent is the remaining top of stack, the
stack of the walk is always strictly decreasing in indentation from its
top, and the lines at indentations 0, 2, 2, 0 produce two roots, the first
owning the two indentation-2 records and the second childless. -/
theorem c6_hierarchy_stack_pop :
    (∀ (stack : List (String × Nat)) (t : WTask) (rest : List WTask),
      List.Pairwise (fun a b : String × Nat => b.2 < a.2) stack →
      hierPairsAux stack (t :: rest) =
        (t, ((stack.filter
            (fun e => e.2 < getIndentLevel t.originalMarkdown)).head?.map (·.1))) ::
          hierPairsAux
            ((t.id, getIndentLevel t.originalMarkdown) ::
              stack.filter (fun e => e.2 < getIndentLevel t.originalMarkdown))
            rest) ∧
    (∀ l : List WTask,
      List.Pairwise (fun a b : String × Nat => b.2 < a.2) (hierStackAux [] l)) ∧
    (buildTaskHierarchy exHierTasks).map (fun t => (t.id, t.parent, t.children)) =
      [("f.md-L0", none, ["f.md-L1", "f.md-L2"]),
       ("f.md-L1", some "f.md-L0", []),
       ("f.md-L2", some "f.md-L0", []),
       ("f.md-L3", none, [])] := by
  refine ⟨?_, ?_, by decide⟩
  · intro stack t rest hp
    simp only [hierPairsAux]
    rw [dropWhile_eq_filter_of_pairwise _ _ hp]
  · intro l
    exact hierStack_pairwise l [] List.Pairwise.nil

/-- Closed instance of C6's universally quantified parts. -/
theorem c6_witness :
    hierPairsAux [("q", 5), ("p", 0)] [exTask 1 "  - [ ] b"] =
      [(exTask 1 "  - [ ] b", some "p")] ∧
    List.Pairwise (fun a b : String × Nat => b.2 < a.2)
      (hierStackAux [] [exTask 0 "- [ ] a"]) := by
  constructor
  · have h := c6_hierarchy_stack_pop.1 [("q", 5), ("p", 0)] (exTask 1 "  - [ ] b") []
      (by decide)
    rw [h]
    decide
  · exact c6_hierarchy_stack_pop.2.1 [exTask 0 "- [ ] a"]

/-! ## Claim C10: non-task lines leave the ancestor stack untouched -/

theorem foldl_pfsLineStep_eq_filterMap (off : Nat) (fp : String)
    (fmt : MetadataFormat) (today : Int) (l : List (Nat × String)) :
    ∀ init : List SNode × List (SRec × List SNode),
    l.foldl (pfsLineStep off fp fmt today) init =
      (l.filterMap (taskRecOfLine off fp fmt today)).foldl pfsRecStep init := by
  induction l with
  | nil => intro init; rfl
  | cons a t ih =>
    intro init
    simp only [List.foldl_cons, List.filterMap_cons]
    cases hg : taskRecOfLine off fp fmt today a with
    | none => simp only [pfsLineStep, hg]; exact ih init
    | some c =>
      simp only [pfsLineStep, hg, List.foldl_cons]
      exact ih (pfsRecStep init c)

/-- Claim C10: `parseTasksForSorting` builds exactly the forest obtained by
first deleting every non-task line (keeping the surviving records' absolute
line numbers and indentations) and then running the ancestor-stack fold on
the remaining records alone — so a task line following non-task lines is
linked exactly as if the intervening non-task lines were absent. -/
theorem c10_nontask_lines_do_not_reset_stack
    (blockText : String) (lineOffset : Nat) (filePath : String)
    (fmt : MetadataFormat) (today : Int) :
    parseTasksForSorting blockText lineOffset filePath fmt today =
      buildForestOfRecs
        (((splitOnCharL '\n' blockText.data).map String.mk).enum.filterMap
          (taskRecOfLine lineOffset filePath fmt today)) := by
  unfold parseTasksForSorting buildForestOfRecs
  rw [foldl_pfsLineStep_eq_filterMap]

/-! ## Field preservation through the extractor pipeline -/

theorem setDateField_keeps (t : WTask) (f : DateField) (v : Int) :
    (setDateField t f v).status = t.status ∧ (setDateField t f v).completed = t.completed := by
  cases f <;> exact ⟨rfl, rfl⟩

theorem tryParseAndAssign_keeps (p : List Char → Option (Nat × String)) (fld : DateField)
    (t : WTask) (c : List Char) :
    ((tryParseAndAssign p fld t c).1).status = t.status ∧
    ((tryParseAndAssign p fld t c).1).completed = t.completed := by
  unfold tryParseAndAssign
  repeat' split
  all_goals first
    | exact ⟨rfl, rfl⟩
    | exact setDateField_keeps t fld _

theorem tryTwo_keeps (p1 p2 : List Char → Option (Nat × String)) (fld : DateField)
    (t : WTask) (c : List Char) :
    ((tryTwo p1 p2 fld t c).1).status = t.status ∧
    ((tryTwo p1 p2 fld t c).1).completed = t.completed := by
  have h1 := tryParseAndAssign_keeps p1 fld t c
  have h2 := tryParseAndAssign_keeps p2 fld (tryParseAndAssign p1 fld t c).1
    (tryParseAndAssign p1 fld t c).2.1
  unfold tryTwo
  dsimp only
  by_cases hb : (tryParseAndAssign p1 fld t c).2.2 = true
  · simp only [hb, ite_true]
    exact h1
  · simp only [hb, ite_false]
    exact ⟨h2.1.trans h1.1, h2.2.trans h1.2⟩

theorem extractOneDate_keeps (fmt : MetadataFormat) (fld : DateField)
    (t : WTask) (c : List Char) :
    ((extractOneDate fmt fld t c).1).status = t.status ∧
    ((extractOneDate fmt fld t c).1).completed = t.completed := by
  unfold extractOneDate
  split <;> exact tryTwo_keeps _ _ _ _ _

theorem extractDates_keeps (t : WTask) (c : List Char) (fmt : MetadataFormat) :
    ((extractDates t c fmt).1).status = t.status ∧
    ((extractDates t c fmt).1).completed = t.completed := by
  have H : ∀ (fld : DateField) (u : WTask) (d : List Char),
      ((extractOneDate fmt fld u d).1).status = u.status ∧
      ((extractOneDate fmt fld u d).1).completed = u.completed :=
    fun fld u d => extractOneDate_keeps fmt fld u d
  unfold extractDates
  dsimp only
  constructor
  · exact (H _ _ _).1.trans ((H _ _ _).1.trans ((H _ _ _).1.trans
      ((H _ _ _).1.trans (H _ _ _).1)))
  · exact (H _ _ _).2.trans ((H _ _ _).2.trans ((H _ _ _).2.trans
      ((H _ _ _).2.trans (H _ _ _).2)))

theorem extractRecurrence_keeps (t : WTask) (c : List Char) (fmt : MetadataFormat) :
    ((extractRecurrence t c fmt).1).status = t.status ∧
    ((extractRecurrence t c fmt).1).completed = t.completed := by
  unfold extractRecurrence
  repeat' split
  all_goals exact ⟨rfl, rfl⟩

theorem extractPriorityEmoji_keeps (t : WTask) (c : List Char) :
    ((extractPriorityEmoji t c).1).status = t.status ∧
    ((extractPriorityEmoji t c).1).completed = t.completed := by
  unfold extractPriorityEmoji
  repeat' split
  all_goals dsimp only
  all_goals repeat' split
  all_goals exact ⟨rfl, rfl⟩

theorem extractPriority_keeps (t : WTask) (c : List Char) (fmt : MetadataFormat) :
    ((extractPriority t c fmt).1).status = t.status ∧
    ((extractPriority t c fmt).1).completed = t.completed := by
  unfold extractPriority
  repeat' split
  all_goals try dsimp only
  all_goals repeat' split
  all_goals first
    | exact ⟨rfl, rfl⟩
    | exact extractPriorityEmoji_keeps t c

theorem extractProject_keeps (t : WTask) (c : List Char) (fmt : MetadataFormat) :
    ((extractProject t c fmt).1).status = t.status ∧
    ((extractProject t c fmt).1).completed = t.completed := by
  unfold extractProject
  repeat' split
  all_goals exact ⟨rfl, rfl⟩

theorem extractContextEmoji_keeps (t : WTask) (c : List Char) :
    ((extractContextEmoji t c).1).status = t.status ∧
    ((extractContextEmoji t c).1).completed = t.completed := by
  unfold extractContextEmoji
  repeat' split
  all_goals try dsimp only
  all_goals repeat' split
  all_goals exact ⟨rfl, rfl⟩

theorem extractContext_keeps (t : WTask) (c : List Char) (fmt : MetadataFormat) :
    ((extractContext t c fmt).1).status = t.status ∧
    ((extractContext t c fmt).1).completed = t.completed := by
  unfold extractContext
  repeat' split
  all_goals first
    | exact ⟨rfl, rfl⟩
    | exact extractContextEmoji_keeps t c

theorem extractTags_keeps (t : WTask) (c : List Char) (fmt : MetadataFormat) :
    ((extractTags t c fmt).1).status = t.status ∧
    ((extractTags t c fmt).1).completed = t.completed := by
  unfold extractTags
  exact ⟨rfl, rfl⟩

theorem runExtractors_keeps (t : WTask) (cwm : String) (fmt : MetadataFormat) :
    (runExtractors t cwm fmt).status = t.status ∧
    (runExtractors t cwm fmt).completed = t.completed := by
  unfold runExtractors
  dsimp only
  constructor
  · exact (extractTags_keeps _ _ _).1.trans ((extractContext_keeps _ _ _).1.trans
      ((extractProject_keeps _ _ _).1.trans ((extractPriority_keeps _ _ _).1.trans
        ((extractRecurrence_keeps _ _ _).1.trans (extractDates_keeps _ _ _).1))))
  · exact (extractTags_keeps _ _ _).2.trans ((extractContext_keeps _ _ _).2.trans
      ((extractProject_keeps _ _ _).2.trans ((extractPriority_keeps _ _ _).2.trans
        ((extractRecurrence_keeps _ _ _).2.trans (extractDates_keeps _ _ _).2))))

theorem extractAmbientProperties_keeps (t : WTask) (fc : Option (List String)) :
    (extractAmbientProperties t fc).status = t.status ∧
    (extractAmbientProperties t fc).completed = t.completed ∧
    (extractAmbientProperties t fc).tags = t.tags := by
  unfold extractAmbientProperties
  repeat' split
  all_goals exact ⟨rfl, rfl, rfl⟩

theorem hierPairsAux_fst :
    ∀ (l : List WTask) (stack : List (String × Nat)) (p : WTask × Option String),
    p ∈ hierPairsAux stack l → p.1 ∈ l := by
  intro l
  induction l with
  | nil => intro stack p hp; simp [hierPairsAux] at hp
  | cons t rest ih =>
    intro stack p hp
    simp only [hierPairsAux, List.mem_cons] at hp
    rcases hp with hp | hp
    · subst hp; exact List.mem_cons_self _ _
    · exact List.mem_cons_of_mem _ (ih _ p hp)

theorem mem_buildTaskHierarchy {u : WTask} {ts : List WTask}
    (hu : u ∈ buildTaskHierarchy ts) :
    ∃ v ∈ ts, u.status = v.status ∧ u.completed = v.completed ∧ u.tags = v.tags := by
  unfold buildTaskHierarchy at hu
  dsimp only at hu
  rcases List.mem_map.mp hu with ⟨p, hp, rfl⟩
  have h1 := hierPairsAux_fst _ _ p hp
  have h2 := mem_sortLe.mp h1
  exact ⟨p.1, h2, rfl, rfl, rfl⟩

/-- Claim C1 (amended): for every line that parses as a task, the resulting
record's `completed` flag is true exactly when the raw status marker,
lowercased, equals `"x"` — the hardcoded test of the source, independent of
any configured completed-marker set. -/
theorem c1_completed_iff_status_x (fp content : String) (fmt : MetadataFormat)
    (cache : Option (List String)) :
    ∀ t ∈ parseTasksFromContent fp content fmt cache,
      t.completed = (toLowerStr t.status == "x") := by
  intro t ht
  unfold parseTasksFromContent at ht
  dsimp only at ht
  rcases mem_buildTaskHierarchy ht with ⟨v, hv, hs, hc, _⟩
  rcases List.mem_filterMap.mp hv with ⟨p, _, hpv⟩
  rcases Option.map_eq_some'.mp hpv with ⟨sc, _, hveq⟩
  have hva := extractAmbientProperties_keeps
    (runExtractors (mkBaseTask fp p.1 p.2 sc.1 sc.2) sc.2 fmt) cache
  have hvr := runExtractors_keeps (mkBaseTask fp p.1 p.2 sc.1 sc.2) sc.2 fmt
  rw [hc, hs, ← hveq, hva.1, hva.2.1, hvr.1, hvr.2]
  rfl

/-- Counterexample to claim C1 as stated: with the completed-marker set
configured as `"y"`, the line `"- [y] hi"` parses to a task whose status is
the configured completed marker yet whose `completed` flag is false. -/
theorem c1_counterexample :
    ((parseTasksFromContent "f.md" "- [y] hi" .tasks none).map
      (fun t => (t.status, t.completed)) = [("y", false)]) ∧
    "y" ∈ completedMarkersOf ⟨[], [], [], [("completed", "y")]⟩ := by
  decide

/-- Closed instance of C1's amended statement. -/
theorem c1_witness :
    c1WitnessTask.completed = (toLowerStr c1WitnessTask.status == "x") :=
  c1_completed_iff_status_x "f.md" "- [x] hi" .tasks none c1WitnessTask (by decide)

/-! ## Claim C8: project-prefix tags in the final tag set -/

theorem extractTags_dataview_no_project_tag (t : WTask) (c : List Char) :
    ∀ tg ∈ ((extractTags t c .dataview).1).tags,
      startsWithStr tg emojiProjectHead = false := by
  intro tg htg
  unfold extractTags at htg
  simp only [if_pos rfl] at htg
  try dsimp only at htg
  have := List.mem_filter.mp htg
  simpa using this.2

theorem runExtractors_dataview_no_project_tag (t : WTask) (cwm : String) :
    ∀ tg ∈ (runExtractors t cwm .dataview).tags,
      startsWithStr tg emojiProjectHead = false := by
  intro tg htg
  unfold runExtractors at htg
  dsimp only at htg
  exact extractTags_dataview_no_project_tag _ _ tg htg

/-- Claim C8 (amended): in dataview format the final tag set of every
parsed task contains no `#project/`-prefixed tag (they are filtered from
the tag list); in emoji format the prefix tag that the project was derived
from remains in the tag set, as the counterexample shows. -/
theorem c8_dataview_tags_no_project (fp content : String)
    (cache : Option (List String)) :
    ∀ u ∈ parseTasksFromContent fp content .dataview cache,
      ∀ tg ∈ u.tags, startsWithStr tg emojiProjectHead = false := by
  intro u hu tg htg
  unfold parseTasksFromContent at hu
  dsimp only at hu
  rcases mem_buildTaskHierarchy hu with ⟨v, hv, _, _, htags⟩
  rcases List.mem_filterMap.mp hv with ⟨p, _, hpv⟩
  rcases Option.map_eq_some'.mp hpv with ⟨sc, _, hveq⟩
  have hva := extractAmbientProperties_keeps
    (runExtractors (mkBaseTask fp p.1 p.2 sc.1 sc.2) sc.2 .dataview) cache
  apply runExtractors_dataview_no_project_tag (mkBaseTask fp p.1 p.2 sc.1 sc.2) sc.2 tg
  rw [← hva.2.2, hveq, ← htags]
  exact htg

/-- Counterexample to claim C8 as stated: in emoji format the project is
derived from `#project/home` yet that tag remains in the final tag set. -/
theorem c8_counterexample :
    ((parseTasksFromContent "f.md" "- [ ] do stuff #project/home" .tasks none).map
      (fun t => (t.tags, t.project)) = [(["#project/home"], some "home")]) ∧
    startsWithStr "#project/home" emojiProjectHead = true := by
  decide

/-- Closed instance of C8's amended statement. -/
theorem c8_witness :
    startsWithStr "#home" emojiProjectHead = false :=
  c8_dataview_tags_no_project "f.md" "- [ ] a #home #project/x" none
    c8WitnessTask (by decide) "#home" (by decide)

/-! ## Claim C9: date extraction never overwrites and fails softly -/

theorem getDateField_setDateField_ne (t : WTask) (fld fld' : DateField) (v : Int)
    (h : fld' ≠ fld) : getDateField (setDateField t fld' v) fld = getDateField t fld := by
  cases fld' <;> cases fld <;> simp_all [getDateField, setDateField]

theorem tryParseAndAssign_keepsDate (p : List Char → Option (Nat × String))
    (fld fld' : DateField) (t : WTask) (c : List Char) (v : Int)
    (hv : getDateField t fld = some v) :
    getDateField ((tryParseAndAssign p fld' t c).1) fld = some v := by
  by_cases h : fld' = fld
  · subst h
    unfold tryParseAndAssign
    rw [if_pos (by simp [hv])]
    exact hv
  · unfold tryParseAndAssign
    repeat' split
    all_goals first
      | exact hv
      | exact (getDateField_setDateField_ne t fld fld' _ h).trans hv

theorem tryTwo_keepsDate (p1 p2 : List Char → Option (Nat × String))
    (fld fld' : DateField) (t : WTask) (c : List Char) (v : Int)
    (hv : getDateField t fld = some v) :
    getDateField ((tryTwo p1 p2 fld' t c).1) fld = some v := by
  unfold tryTwo
  dsimp only
  by_cases hb : (tryParseAndAssign p1 fld' t c).2.2 = true
  · simp only [hb, ite_true]
    exact tryParseAndAssign_keepsDate p1 fld fld' t c v hv
  · simp only [hb, ite_false]
    exact tryParseAndAssign_keepsDate p2 fld fld' _ _ v
      (tryParseAndAssign_keepsDate p1 fld fld' t c v hv)

theorem extractOneDate_keepsDate (fmt : MetadataFormat) (fld fld' : DateField)
    (t : WTask) (c : List Char) (v : Int) (hv : getDateField t fld = some v) :
    getDateField ((extractOneDate fmt fld' t c).1) fld = some v := by
  unfold extractOneDate
  split <;> exact tryTwo_keepsDate _ _ fld fld' t c v hv

/-- Claim C9: a date field that is already set is never overwritten by
`extractDates`, and an attempt whose regex matches but whose captured date
string fails to parse leaves the task, the content and the success flag
untouched — in particular the matched text is not stripped, and the
function returns normally (it is total by construction). -/
theorem c9_dates_never_overwrite_and_fail_soft :
    (∀ (t : WTask) (c : List Char) (fmt : MetadataFormat) (fld : DateField) (v : Int),
      getDateField t fld = some v →
      getDateField ((extractDates t c fmt).1) fld = some v) ∧
    (∀ (p : List Char → Option (Nat × String)) (fld : DateField) (t : WTask)
      (c : List Char) (i n : Nat) (g1 : String),
      getDateField t fld = none →
      scanFor p c = some (i, n, g1) →
      g1 ≠ "" →
      parseLocalDate g1 = none →
      tryParseAndAssign p fld t c = (t, c, false)) := by
  constructor
  · intro t c fmt fld v hv
    unfold extractDates
    dsimp only
    exact extractOneDate_keepsDate fmt fld .createdAt _ _ v
      (extractOneDate_keepsDate fmt fld .completedAt _ _ v
        (extractOneDate_keepsDate fmt fld .start _ _ v
          (extractOneDate_keepsDate fmt fld .scheduled _ _ v
            (extractOneDate_keepsDate fmt fld .due t c v hv))))
  · intro p fld t c i n g1 hnone hscan hg1 hparse
    unfold tryParseAndAssign
    rw [if_neg (by simp [hnone]), hscan]
    simp [hg1, hparse]

/-- Closed instance of C9 at concrete inputs: a pre-set due date survives
extraction, and a matched but out-of-range date (month 13) changes
nothing. -/
theorem c9_witness :
    getDateField ((extractDates { exTask 0 "" with dueDate := some 7 }
        "⏳ 2024-01-02".data .tasks).1) .due = some 7 ∧
    tryParseAndAssign (emojiDatePatAt '📅') .due (exTask 0 "")
        "x 📅 2024-13-45".data =
      (exTask 0 "", "x 📅 2024-13-45".data, false) :=
  ⟨c9_dates_never_overwrite_and_fail_soft.1 _ _ .tasks .due 7 (by decide),
   c9_dates_never_overwrite_and_fail_soft.2 (emojiDatePatAt '📅') .due (exTask 0 "")
     _ 2 12 "2024-13-45" (by decide) (by decide) (by decide) (by decide)⟩

/-! ## Claim C3: tag scan inside a pipe-free wiki link -/

/-- Claim C3 (code bug): extracting
`"- [ ] Visit [[Project#project]] @home #urgent"` in emoji format yields
context `"home"`, no project, and content `"Visit [[Project#project]]"` as
the claim states, but the tag list is `["#project", "#urgent"]`, not
`["#urgent"]`: the wiki-link regex used for masking in `extractTags`
requires an alias pipe, so the pipe-free link `[[Project#project]]` is
never masked and the `#project` token inside it is scanned as a tag,
contradicting the source's own comment that links are excluded from tag
processing. -/
theorem c3_unaliased_link_tag_leak :
    (parseTasksFromContent "f.md" "- [ ] Visit [[Project#project]] @home #urgent"
        .tasks none).map (fun t => (t.tags, t.context, t.project, t.content)) =
      [(["#project", "#urgent"], some "home", none, "Visit [[Project#project]]")] := by
  decide

/-! ## Claim C4: the dynamic status-rank table -/

theorem lookup_append_some {m : String} {l1 l2 : List (String × Nat)} {r : Nat}
    (h : List.lookup m l1 = some r) : List.lookup m (l1 ++ l2) = some r := by
  induction l1 with
  | nil => simp [List.lookup] at h
  | cons a t ih =>
    simp only [List.lookup, List.cons_append] at h ⊢
    split at h
    · simpa using h
    · simp_all [List.lookup]

theorem lookup_append_none {m : String} {l1 : List (String × Nat)}
    (h : List.lookup m l1 = none) (l2 : List (String × Nat)) :
    List.lookup m (l1 ++ l2) = List.lookup m l2 := by
  induction l1 with
  | nil => rfl
  | cons a t ih =>
    simp only [List.lookup, List.cons_append] at h ⊢
    split at h
    · simp at h
    · simp_all [List.lookup]

theorem mem_of_lookup_eq_some {m : String} {l : List (String × String)} {v : String}
    (h : List.lookup m l = some v) : (m, v) ∈ l := by
  induction l with
  | nil => simp [List.lookup] at h
  | cons a t ih =>
    simp only [List.lookup] at h
    split at h
    · rename_i hbeq
      have hma : m = a.1 := eq_of_beq hbeq
      injection h with hv
      have he : (m, v) = a := by rw [hma, ← hv]
      rw [he]
      exact List.mem_cons_self a t
    · exact List.mem_cons_of_mem a (ih h)

theorem subOrder_refl (ord : List (String × Nat)) : SubOrder ord ord :=
  fun _ _ h => h

theorem subOrder_trans {o1 o2 o3 : List (String × Nat)}
    (h1 : SubOrder o1 o2) (h2 : SubOrder o2 o3) : SubOrder o1 o3 :=
  fun m r h => h2 m r (h1 m r h)

theorem subOrder_append (ord l2 : List (String × Nat)) : SubOrder ord (ord ++ l2) :=
  fun _ _ h => lookup_append_some h

theorem subOrder_insertIfAbsent (ord : List (String × Nat)) (m : String) (r : Nat) :
    SubOrder ord (insertIfAbsent ord m r) := by
  unfold insertIfAbsent
  split
  · exact subOrder_refl ord
  · exact subOrder_append ord _

theorem lookup_single_self (m : String) (r : Nat) :
    List.lookup m ([(m, r)] : List (String × Nat)) = some r := by
  simp [List.lookup]

theorem rankConsistent_append (comp canc : List String) {ord : List (String × Nat)}
    (hrc : RankConsistent comp canc ord) (m : String) (r : Nat)
    (h98 : m ∈ comp → r = 98) (h99 : m ∈ canc → m ∉ comp → r = 99) :
    RankConsistent comp canc (ord ++ [(m, r)]) := by
  intro m' r' h'
  cases hl : List.lookup m' ord with
  | some v =>
    rw [lookup_append_some hl] at h'
    injection h' with h'
    subst h'
    exact hrc m' v hl
  | none =>
    rw [lookup_append_none hl] at h'
    by_cases hm : m' = m
    · subst hm
      rw [lookup_single_self] at h'
      injection h' with h'
      subst h'
      exact ⟨h98, h99⟩
    · exfalso
      simp only [List.lookup] at h'
      have hbeq : (m' == m) = false := by simpa using hm
      rw [hbeq] at h'
      exact Option.noConfusion h'

theorem rankConsistent_insertIfAbsent (comp canc : List String)
    {ord : List (String × Nat)} (hrc : RankConsistent comp canc ord)
    (m : String) (r : Nat)
    (h98 : List.lookup m ord = none → m ∈ comp → r = 98)
    (h99 : List.lookup m ord = none → m ∈ canc → m ∉ comp → r = 99) :
    RankConsistent comp canc (insertIfAbsent ord m r) := by
  unfold insertIfAbsent
  split
  · exact hrc
  · rename_i habs
    have hnone : List.lookup m ord = none :=
      Option.not_isSome_iff_eq_none.mp (by simpa using habs)
    exact rankConsistent_append comp canc hrc m r (h98 hnone) (h99 hnone)

theorem subOrder_isSome {o1 o2 : List (String × Nat)} (h : SubOrder o1 o2)
    (m : String) (hs : (List.lookup m o1).isSome = true) :
    (List.lookup m o2).isSome = true := by
  cases hl : List.lookup m o1 with
  | none => rw [hl] at hs; simp at hs
  | some r => rw [h m r hl]; rfl

theorem cycleStep_inv (comp canc : List String) (marks : List (String × String))
    (exclude : List String) (st : CycleState) (name : String)
    (hrc : RankConsistent comp canc st.ord)
    (hcomp : ∀ m ∈ st.compC, m ∈ comp)
    (hcanc : ∀ m ∈ st.cancC, m ∈ canc ∧ m ∉ comp) :
    RankConsistent comp canc (cycleStep comp canc marks exclude st name).ord ∧
    (∀ m ∈ (cycleStep comp canc marks exclude st name).compC, m ∈ comp) ∧
    (∀ m ∈ (cycleStep comp canc marks exclude st name).cancC, m ∈ canc ∧ m ∉ comp) ∧
    SubOrder st.ord (cycleStep comp canc marks exclude st name).ord := by
  unfold cycleStep
  split
  · exact ⟨hrc, hcomp, hcanc, subOrder_refl _⟩
  · rename_i m hm
    split_ifs with h1 h2 h3 h4 h5
    · exact ⟨hrc, hcomp, hcanc, subOrder_refl _⟩
    · exact ⟨hrc, hcomp, hcanc, subOrder_refl _⟩
    · refine ⟨hrc, ?_, hcanc, subOrder_refl _⟩
      intro x hx
      rcases List.mem_append.mp hx with hx | hx
      · exact hcomp x hx
      · rcases List.mem_singleton.mp hx with rfl
        simpa using h3
    · refine ⟨hrc, hcomp, ?_, subOrder_refl _⟩
      intro x hx
      rcases List.mem_append.mp hx with hx | hx
      · exact hcanc x hx
      · rcases List.mem_singleton.mp hx with rfl
        refine ⟨by simpa using h4, ?_⟩
        intro hxc
        exact h3 (by simpa using hxc)
    · exact ⟨hrc, hcomp, hcanc, subOrder_refl _⟩
    · refine ⟨?_, hcomp, hcanc, subOrder_append _ _⟩
      apply rankConsistent_append comp canc hrc
      · intro hc
        exact absurd (by simpa using hc : List.contains comp m = true) h3
      · intro hc _
        exact absurd (by simpa using hc : List.contains canc m = true) h4

theorem cycleFold_inv (comp canc : List String) (marks : List (String × String))
    (exclude : List String) :
    ∀ (names : List String) (st : CycleState),
    RankConsistent comp canc st.ord →
    (∀ m ∈ st.compC, m ∈ comp) →
    (∀ m ∈ st.cancC, m ∈ canc ∧ m ∉ comp) →
    RankConsistent comp canc
      (names.foldl (cycleStep comp canc marks exclude) st).ord ∧
    (∀ m ∈ (names.foldl (cycleStep comp canc marks exclude) st).compC, m ∈ comp) ∧
    (∀ m ∈ (names.foldl (cycleStep comp canc marks exclude) st).cancC,
      m ∈ canc ∧ m ∉ comp) ∧
    SubOrder st.ord (names.foldl (cycleStep comp canc marks exclude) st).ord := by
  intro names
  induction names with
  | nil => intro st h1 h2 h3; exact ⟨h1, h2, h3, subOrder_refl _⟩
  | cons n rest ih =>
    intro st h1 h2 h3
    have hstep := cycleStep_inv comp canc marks exclude st n h1 h2 h3
    have hrest := ih (cycleStep comp canc marks exclude st n)
      hstep.1 hstep.2.1 hstep.2.2.1
    exact ⟨hrest.1, hrest.2.1, hrest.2.2.1,
      subOrder_trans hstep.2.2.2 hrest.2.2.2⟩

theorem insert98Fold_inv (comp canc : List String) :
    ∀ (ms : List String) (ord : List (String × Nat)),
    RankConsistent comp canc ord →
    (∀ m ∈ ms, m ∈ comp) →
    RankConsistent comp canc (ms.foldl (fun o m => insertIfAbsent o m 98) ord) ∧
    SubOrder ord (ms.foldl (fun o m => insertIfAbsent o m 98) ord) := by
  intro ms
  induction ms with
  | nil => intro ord h1 _; exact ⟨h1, subOrder_refl _⟩
  | cons m rest ih =>
    intro ord h1 h2
    have hm : m ∈ comp := h2 m (List.mem_cons_self m rest)
    have hstep : RankConsistent comp canc (insertIfAbsent ord m 98) :=
      rankConsistent_insertIfAbsent comp canc h1 m 98
        (fun _ _ => rfl)
        (fun _ _ hnc => absurd hm hnc)
    have hrest := ih (insertIfAbsent ord m 98) hstep
      (fun x hx => h2 x (List.mem_cons_of_mem m hx))
    exact ⟨hrest.1, subOrder_trans (subOrder_insertIfAbsent ord m 98) hrest.2⟩

theorem insert99Fold_inv (comp canc : List String) :
    ∀ (ms : List String) (ord : List (String × Nat)),
    RankConsistent comp canc ord →
    (∀ m ∈ ms, m ∈ canc ∧ m ∉ comp) →
    RankConsistent comp canc (ms.foldl (fun o m => insertIfAbsent o m 99) ord) ∧
    SubOrder ord (ms.foldl (fun o m => insertIfAbsent o m 99) ord) := by
  intro ms
  induction ms with
  | nil => intro ord h1 _; exact ⟨h1, subOrder_refl _⟩
  | cons m rest ih =>
    intro ord h1 h2
    have hm := h2 m (List.mem_cons_self m rest)
    have hstep : RankConsistent comp canc (insertIfAbsent ord m 99) :=
      rankConsistent_insertIfAbsent comp canc h1 m 99
        (fun _ hc => absurd hc hm.2)
        (fun _ _ _ => rfl)
    have hrest := ih (insertIfAbsent ord m 99) hstep
      (fun x hx => h2 x (List.mem_cons_of_mem m hx))
    exact ⟨hrest.1, subOrder_trans (subOrder_insertIfAbsent ord m 99) hrest.2⟩

theorem fallbackMarkStep_inv (comp canc : List String)
    (st : List (String × Nat) × Nat) (m : String)
    (hrc : RankConsistent comp canc st.1) :
    RankConsistent comp canc (fallbackMarkStep comp canc st m).1 ∧
    SubOrder st.1 (fallbackMarkStep comp canc st m).1 ∧
    (m ≠ "" → (List.lookup m (fallbackMarkStep comp canc st m).1).isSome = true) := by
  unfold fallbackMarkStep
  split_ifs with h1 h2 h3 h4
  · exact ⟨hrc, subOrder_refl _, fun hne => absurd h1 hne⟩
  · exact ⟨hrc, subOrder_refl _, fun _ => h2⟩
  · have hnone : List.lookup m st.1 = none :=
      Option.not_isSome_iff_eq_none.mp (by simpa using h2)
    refine ⟨?_, subOrder_append _ _, ?_⟩
    · exact rankConsistent_append comp canc hrc m 98 (fun _ => rfl)
        (fun hc hnc => absurd (by simpa using h3 : List.contains comp m = true)
          (by simpa using hnc))
    · intro _
      rw [lookup_append_none hnone, lookup_single_self]
      rfl
  · have hnone : List.lookup m st.1 = none :=
      Option.not_isSome_iff_eq_none.mp (by simpa using h2)
    refine ⟨?_, subOrder_append _ _, ?_⟩
    · refine rankConsistent_append comp canc hrc m 99 ?_ (fun _ _ => rfl)
      intro hc
      exact absurd (by simpa using hc : List.contains comp m = true) h3
    · intro _
      rw [lookup_append_none hnone, lookup_single_self]
      rfl
  · have hnone : List.lookup m st.1 = none :=
      Option.not_isSome_iff_eq_none.mp (by simpa using h2)
    refine ⟨?_, subOrder_append _ _, ?_⟩
    · refine rankConsistent_append comp canc hrc m st.2 ?_ ?_
      · intro hc
        exact absurd (by simpa using hc : List.contains comp m = true) h3
      · intro hc _
        exact absurd (by simpa using hc : List.contains canc m = true) h4
    · intro _
      rw [lookup_append_none hnone, lookup_single_self]
      rfl

theorem fallbackInner_inv (comp canc : List String) :
    ∀ (ms : List String) (st : List (String × Nat) × Nat),
    RankConsistent comp canc st.1 →
    RankConsistent comp canc (ms.foldl (fallbackMarkStep comp canc) st).1 ∧
    SubOrder st.1 (ms.foldl (fallbackMarkStep comp canc) st).1 ∧
    (∀ m ∈ ms, m ≠ "" →
      (List.lookup m (ms.foldl (fallbackMarkStep comp canc) st).1).isSome = true) := by
  intro ms
  induction ms with
  | nil => intro st h1; exact ⟨h1, subOrder_refl _, by simp⟩
  | cons m rest ih =>
    intro st h1
    have hstep := fallbackMarkStep_inv comp canc st m h1
    have hrest := ih (fallbackMarkStep comp canc st m) hstep.1
    refine ⟨hrest.1, subOrder_trans hstep.2.1 hrest.2.1, ?_⟩
    intro x hx hne
    rcases List.mem_cons.mp hx with rfl | hx
    · exact subOrder_isSome hrest.2.1 x (hstep.2.2 hne)
    · exact hrest.2.2 x hx hne

theorem fallbackOuter_inv (comp canc : List String) :
    ∀ (pairs : List (String × String)) (st : List (String × Nat) × Nat),
    RankConsistent comp canc st.1 →
    RankConsistent comp canc
      (pairs.foldl (fun st kv => (splitBar kv.2).foldl (fallbackMarkStep comp canc) st) st).1 ∧
    SubOrder st.1
      (pairs.foldl (fun st kv => (splitBar kv.2).foldl (fallbackMarkStep comp canc) st) st).1 ∧
    (∀ kv ∈ pairs, ∀ m ∈ splitBar kv.2, m ≠ "" →
      (List.lookup m
        (pairs.foldl (fun st kv => (splitBar kv.2).foldl (fallbackMarkStep comp canc) st) st).1).isSome
        = true) := by
  intro pairs
  induction pairs with
  | nil => intro st h1; exact ⟨h1, subOrder_refl _, by simp⟩
  | cons kv rest ih =>
    intro st h1
    have hstep := fallbackInner_inv comp canc (splitBar kv.2) st h1
    have hrest := ih ((splitBar kv.2).foldl (fallbackMarkStep comp canc) st) hstep.1
    refine ⟨hrest.1, subOrder_trans hstep.2.1 hrest.2.1, ?_⟩
    intro kv' hkv' m hm hne
    rcases List.mem_cons.mp hkv' with rfl | hkv'
    · exact subOrder_isSome hrest.2.1 m (hstep.2.2 m hm hne)
    · exact hrest.2.2 kv' hkv' m hm hne

theorem lookup_single_eq {m k : String} {v r : Nat}
    (h : List.lookup m ([(k, v)] : List (String × Nat)) = some r) :
    m = k ∧ r = v := by
  simp only [List.lookup] at h
  cases hbeq : m == k with
  | true => rw [hbeq] at h; injection h with h; exact ⟨eq_of_beq hbeq, h.symm⟩
  | false => rw [hbeq] at h; exact Option.noConfusion h

theorem preDefaultOrder_inv (s : PBSettings)
    (hovc : "overdue" ∉ completedMarkersOf s)
    (hova : "overdue" ∉ cancelledMarkersOf s) :
    RankConsistent (completedMarkersOf s) (cancelledMarkersOf s) (preDefaultOrder s).1 ∧
    SubOrder [("overdue", 1)] (preDefaultOrder s).1 ∧
    MarksCovered s (preDefaultOrder s).1 := by
  have hinit : RankConsistent (completedMarkersOf s) (cancelledMarkersOf s)
      ([("overdue", 1)] : List (String × Nat)) := by
    intro m r h
    rcases lookup_single_eq h with ⟨rfl, _⟩
    exact ⟨fun hc => absurd hc hovc, fun hc _ => absurd hc hova⟩
  have hcyc := cycleFold_inv (completedMarkersOf s) (cancelledMarkersOf s)
    s.taskStatusMarks s.excludeMarksFromCycle s.taskStatusCycle
    ⟨[("overdue", 1)], 2, [], []⟩ hinit (by simp) (by simp)
  have h98 := insert98Fold_inv (completedMarkersOf s) (cancelledMarkersOf s)
    (cycleStage s).compC (cycleStage s).ord hcyc.1 hcyc.2.1
  have h99 := insert99Fold_inv (completedMarkersOf s) (cancelledMarkersOf s)
    (cycleStage s).cancC _ h98.1 hcyc.2.2.1
  have hbkt : RankConsistent (completedMarkersOf s) (cancelledMarkersOf s)
      (bucketStage s) := h99.1
  have hfb := fallbackOuter_inv (completedMarkersOf s) (cancelledMarkersOf s)
    s.taskStatuses (bucketStage s, (cycleStage s).ctr) hbkt
  refine ⟨hfb.1, ?_, ?_⟩
  · refine subOrder_trans ?_ hfb.2.1
    exact subOrder_trans hcyc.2.2.2 (subOrder_trans h98.2 h99.2)
  · intro k v m hkv hm hne
    exact hfb.2.2 (k, v) hkv m hm hne

theorem lookup_insertIfAbsent_self_of_none {m : String} {ord : List (String × Nat)}
    (h : List.lookup m ord = none) (r : Nat) :
    List.lookup m (insertIfAbsent ord m r) = some r := by
  unfold insertIfAbsent
  rw [if_neg (by simp [h])]
  rw [lookup_append_none h, lookup_single_self]

theorem lookup_insertIfAbsent_none_ne {m m' : String} {ord : List (String × Nat)}
    (h : List.lookup m ord = none) (hne : m ≠ m') (r : Nat) :
    List.lookup m (insertIfAbsent ord m' r) = none := by
  unfold insertIfAbsent
  split
  · exact h
  · rw [lookup_append_none h]
    have hbeq : (m == m') = false := by simpa using hne
    simp [List.lookup, hbeq]

theorem completed_marker_cases (s : PBSettings) (m : String)
    (hm : m ∈ completedMarkersOf s) :
    m ∈ splitBar "x|X" ∨
    ∃ c, List.lookup "completed" s.taskStatuses = some c ∧ c ≠ "" ∧ m ∈ splitBar c := by
  unfold completedMarkersOf orDefaultStr at hm
  cases hl : List.lookup "completed" s.taskStatuses with
  | none => rw [hl] at hm; exact Or.inl hm
  | some c =>
    rw [hl] at hm
    dsimp only at hm
    by_cases hc : c = ""
    · rw [if_pos hc] at hm
      exact Or.inl hm
    · rw [if_neg hc] at hm
      exact Or.inr ⟨c, rfl, hc, hm⟩

theorem cancelled_marker_cases (s : PBSettings) (m : String)
    (hm : m ∈ cancelledMarkersOf s) :
    m ∈ splitBar "-" ∨
    ∃ c, List.lookup "abandoned" s.taskStatuses = some c ∧ c ≠ "" ∧ m ∈ splitBar c := by
  unfold cancelledMarkersOf orDefaultStr at hm
  cases hl : List.lookup "abandoned" s.taskStatuses with
  | none => rw [hl] at hm; exact Or.inl hm
  | some c =>
    rw [hl] at hm
    dsimp only at hm
    by_cases hc : c = ""
    · rw [if_pos hc] at hm
      exact Or.inl hm
    · rw [if_neg hc] at hm
      exact Or.inr ⟨c, rfl, hc, hm⟩

theorem covered_completed_isSome (s : PBSettings)
    (hcov : MarksCovered s (preDefaultOrder s).1) (m : String)
    (hm : m ∈ completedMarkersOf s) (hdef : m ∉ splitBar "x|X") (hne : m ≠ "") :
    (List.lookup m (preDefaultOrder s).1).isSome = true := by
  rcases completed_marker_cases s m hm with h | ⟨c, hl, _, hmem⟩
  · exact absurd h hdef
  · exact hcov "completed" c m (mem_of_lookup_eq_some hl) hmem hne

theorem covered_cancelled_isSome (s : PBSettings)
    (hcov : MarksCovered s (preDefaultOrder s).1) (m : String)
    (hm : m ∈ cancelledMarkersOf s) (hdef : m ∉ splitBar "-") (hne : m ≠ "") :
    (List.lookup m (preDefaultOrder s).1).isSome = true := by
  rcases cancelled_marker_cases s m hm with h | ⟨c, hl, _, hmem⟩
  · exact absurd h hdef
  · exact hcov "abandoned" c m (mem_of_lookup_eq_some hl) hmem hne

/-- Claim C4 (amended): for every settings configuration whose bucket
markers do not use the reserved word "overdue": the synthetic overdue
status always has rank 1; any marker that receives a table entry and lies
in the completed bucket has rank 98; any entered marker in the cancelled
bucket but not the completed bucket has rank 99 (a marker in both buckets
gets 98, and a bucket marker never listed in `taskStatuses` may receive no
entry at all — see the counterexample); every nonempty marker listed in
`taskStatuses` receives an entry; the plain-incomplete marker defaults to
rank 10 and the plain-complete marker to rank 98 when still unassigned
before the default step; and at comparison time a marker absent from the
table is treated as rank 1000. -/
theorem c4_status_rank_table (s : PBSettings)
    (hovc : "overdue" ∉ completedMarkersOf s)
    (hova : "overdue" ∉ cancelledMarkersOf s) :
    List.lookup "overdue" (getDynamicStatusOrder s) = some 1 ∧
    (∀ m r, List.lookup m (getDynamicStatusOrder s) = some r →
      m ∈ completedMarkersOf s → r = 98) ∧
    (∀ m r, List.lookup m (getDynamicStatusOrder s) = some r →
      m ∈ cancelledMarkersOf s → m ∉ completedMarkersOf s → r = 99) ∧
    (∀ k v m, (k, v) ∈ s.taskStatuses → m ∈ splitBar v → m ≠ "" →
      (List.lookup m (getDynamicStatusOrder s)).isSome = true) ∧
    (List.lookup " " (preDefaultOrder s).1 = none →
      List.lookup " " (getDynamicStatusOrder s) = some 10) ∧
    (List.lookup "x" (preDefaultOrder s).1 = none →
      List.lookup "x" (getDynamicStatusOrder s) = some 98) ∧
    (∀ (ord : List (String × Nat)) (st : String),
      List.lookup st ord = none → statusVal ord st = 1000) := by
  obtain ⟨hrc, hsub, hcov⟩ := preDefaultOrder_inv s hovc hova
  have hmid : RankConsistent (completedMarkersOf s) (cancelledMarkersOf s)
      (insertIfAbsent (preDefaultOrder s).1 " " 10) := by
    apply rankConsistent_insertIfAbsent _ _ hrc
    · intro hnone hc
      exfalso
      have := covered_completed_isSome s hcov " " hc (by decide) (by decide)
      rw [hnone] at this
      exact Bool.noConfusion this
    · intro hnone hc _
      exfalso
      have := covered_cancelled_isSome s hcov " " hc (by decide) (by decide)
      rw [hnone] at this
      exact Bool.noConfusion this
  have hfin : RankConsistent (completedMarkersOf s) (cancelledMarkersOf s)
      (getDynamicStatusOrder s) := by
    unfold getDynamicStatusOrder
    apply rankConsistent_insertIfAbsent _ _ hmid
    · intro _ _
      rfl
    · intro hnone hc hnc
      exfalso
      have hpre := covered_cancelled_isSome s hcov "x" hc (by decide) (by decide)
      have := subOrder_isSome (subOrder_insertIfAbsent (preDefaultOrder s).1 " " 10)
        "x" hpre
      rw [hnone] at this
      exact Bool.noConfusion this
  have hsubfin : SubOrder (preDefaultOrder s).1 (getDynamicStatusOrder s) := by
    unfold getDynamicStatusOrder
    exact subOrder_trans (subOrder_insertIfAbsent _ " " 10)
      (subOrder_insertIfAbsent _ "x" 98)
  refine ⟨?_, ?_, ?_, ?_, ?_, ?_, ?_⟩
  · exact hsubfin _ _ (hsub "overdue" 1 (lookup_single_self _ _))
  · intro m r h hm
    exact (hfin m r h).1 hm
  · intro m r h hm hnm
    exact (hfin m r h).2 hm hnm
  · intro k v m hkv hm hne
    exact subOrder_isSome hsubfin m (hcov k v m hkv hm hne)
  · intro hnone
    unfold getDynamicStatusOrder
    exact subOrder_insertIfAbsent _ "x" 98 _ _
      (lookup_insertIfAbsent_self_of_none hnone 10)
  · intro hnone
    unfold getDynamicStatusOrder
    have h1 : List.lookup "x" (insertIfAbsent (preDefaultOrder s).1 " " 10) = none :=
      lookup_insertIfAbsent_none_ne hnone (by decide) 10
    exact lookup_insertIfAbsent_self_of_none h1 98
  · intro ord st h
    unfold statusVal
    rw [h]

/-- Counterexample to claim C4 as stated: with `taskStatuses` configured as
only `abandoned = "x"`, the completed bucket defaults to `x|X`; the marker
`"x"` is a cancelled-bucket marker but receives rank 98 (the completed
check wins), and the completed-bucket marker `"X"` receives no table entry
at all, so `compareTasks` treats it as rank 1000 rather than 98. -/
theorem c4_counterexample :
    "x" ∈ cancelledMarkersOf ⟨[], [], [], [("abandoned", "x")]⟩ ∧
    List.lookup "x" (getDynamicStatusOrder ⟨[], [], [], [("abandoned", "x")]⟩) = some 98 ∧
    "X" ∈ completedMarkersOf ⟨[], [], [], [("abandoned", "x")]⟩ ∧
    List.lookup "X" (getDynamicStatusOrder ⟨[], [], [], [("abandoned", "x")]⟩) = none ∧
    statusVal (getDynamicStatusOrder ⟨[], [], [], [("abandoned", "x")]⟩) "X" = 1000 := by
  decide

/-- Closed instance of C4's amended statement. -/
theorem c4_witness :
    List.lookup "overdue" (getDynamicStatusOrder ⟨[], [], [], []⟩) = some 1 :=
  (c4_status_rank_table ⟨[], [], [], []⟩ (by decide) (by decide)).1
